import Mathlib

/-!
FRefCountedStruct: a copyable reference-counted handle.

Shallow embedding of `Public/ReferenceCounter/ReferenceCountable.h`.

* The two shared cells of a handle (`TSharedPtr<std::atomic<int32>> RefCount` and
  `TSharedPtr<std::atomic<bool>> bIsDestroying`) live in a `Heap`: one store of int32
  cells and one store of bool cells, each with its own allocation counter. A shared
  pointer is `Option Nat` (`none` is the null pointer). Cells are never reclaimed in the
  model: a reclaimed cell is unreachable, so this is not observable.
* `std::atomic<int32>` arithmetic is two's complement (`fetch_add` / `fetch_sub` wrap
  around, they are not undefined), which is `wrapInt32`.
* The virtual call of `OnAllReferencesReleased` is explicit: `ReleaseReferenceVia` takes
  the implementation that the dynamic type of the object selects. The methods of
  `FRefCountedStruct` are those of an object of that very type, whose hook is the base
  implementation (a log line); every call of it is recorded in `Heap.hooks` together
  with what the handle observes at that moment. An `Object` is an object of a derived
  struct, with the hook of its own.
* Execution is sequential: one operation runs to completion before the next starts.
  The threads of `Conc` are the exception: they interleave the atomic steps of
  `ReleaseReference()`, and a thread that is not interrupted computes the sequential
  method.
-/

namespace RefCounter

/-- Two's-complement reduction of an integer into the range of `int32`. -/
def wrapInt32 (x : Int) : Int := (x + 2147483648) % 4294967296 - 2147483648

/-- One invocation of `OnAllReferencesReleased`: the counter cell of the handle it was
invoked on, and what `GetRefCount()`, `IsDestroying()` and `IsReleased()` return on that
handle at the moment of the call. -/
structure HookCall where
  counter : Option Nat
  refCount : Int
  destroying : Bool
  released : Bool
deriving DecidableEq

/-- The memory shared between handles, plus the observable trace of the run. -/
structure Heap where
  /-- contents of the `std::atomic<int32>` cells -/
  ints : Nat → Int
  /-- address of the next `std::atomic<int32>` to be allocated -/
  nextInt : Nat
  /-- contents of the `std::atomic<bool>` cells -/
  bools : Nat → Bool
  /-- address of the next `std::atomic<bool>` to be allocated -/
  nextBool : Nat
  /-- invocations of `OnAllReferencesReleased`, oldest first -/
  hooks : List HookCall

namespace Heap

/-- The memory before anything is allocated. -/
def empty : Heap := ⟨fun _ => 0, 0, fun _ => false, 0, []⟩

/-- The expression `new std::atomic<int32>(v)`: the new memory and the address. -/
def newInt (m : Heap) (v : Int) : Heap × Nat :=
  ({ m with ints := Function.update m.ints m.nextInt v, nextInt := m.nextInt + 1 }, m.nextInt)

/-- The expression `new std::atomic<bool>(v)`: the new memory and the address. -/
def newBool (m : Heap) (v : Bool) : Heap × Nat :=
  ({ m with bools := Function.update m.bools m.nextBool v, nextBool := m.nextBool + 1 },
    m.nextBool)

/-- The call `fetch_add(d)` on the int32 cell at `a`. -/
def fetchAdd (m : Heap) (a : Nat) (d : Int) : Heap :=
  { m with ints := Function.update m.ints a (wrapInt32 (m.ints a + d)) }

/-- The call `fetch_sub(d)` on the int32 cell at `a`. -/
def fetchSub (m : Heap) (a : Nat) (d : Int) : Heap :=
  { m with ints := Function.update m.ints a (wrapInt32 (m.ints a - d)) }

/-- The call `store(v)` on the bool cell at `a`. -/
def storeBool (m : Heap) (a : Nat) (v : Bool) : Heap :=
  { m with bools := Function.update m.bools a v }

/-- Number of hook invocations recorded for the counter cell `k`. -/
def hookCount (m : Heap) (k : Nat) : Nat :=
  (m.hooks.filter (fun c => decide (c.counter = some k))).length

end Heap

/-- The data members of one `FRefCountedStruct` object. -/
structure FRefCountedStruct where
  RefCount : Option Nat
  bIsDestroying : Option Nat
  bReleased : Bool
deriving DecidableEq

namespace FRefCountedStruct

/-- The members of an object before a constructor body runs: both shared pointers are
null and `bReleased` has its default member initializer `false`. -/
def uninit : FRefCountedStruct := ⟨none, none, false⟩

/-- Method `IsValid()`: `RefCount.IsValid()`. -/
def IsValid (self : FRefCountedStruct) : Bool := self.RefCount.isSome

/-- Method `GetRefCount()`: `RefCount ? RefCount->load() : 0`. -/
def GetRefCount (self : FRefCountedStruct) (m : Heap) : Int :=
  match self.RefCount with
  | some rc => m.ints rc
  | none => 0

/-- Method `IsDestroying()`: `bIsDestroying ? bIsDestroying->load() : true`. -/
def IsDestroying (self : FRefCountedStruct) (m : Heap) : Bool :=
  match self.bIsDestroying with
  | some fl => m.bools fl
  | none => true

/-- Method `IsReleased()`: `bReleased.load()`. -/
def IsReleased (self : FRefCountedStruct) : Bool := self.bReleased

/-- Method `OnAllReferencesReleased()`, base implementation: it only logs. The call is
appended to the trace. -/
def OnAllReferencesReleased (self : FRefCountedStruct) (m : Heap) : Heap :=
  { m with hooks := m.hooks ++
      [⟨self.RefCount, self.GetRefCount m, self.IsDestroying m, self.IsReleased⟩] }

/-- Method `IncrementRefCounter()`:
`if (RefCount && !IsDestroying()) RefCount->fetch_add(1)`. -/
def IncrementRefCounter (self : FRefCountedStruct) (m : Heap) : Heap :=
  match self.RefCount with
  | some rc => if self.IsDestroying m then m else m.fetchAdd rc 1
  | none => m

/-- Method `ReleaseReference()`, with the virtual call `OnAllReferencesReleased()` of
line 117 dispatched to `hook`, the implementation that the dynamic type of the object
selects at the time of the call. The three guards return early; otherwise the counter is
decremented, `bReleased` is set, and when the counter then reads zero the destroying
flag is stored and the hook is called. The last match arm is never taken: past the
guards both pointers are non-null. -/
def ReleaseReferenceVia (self : FRefCountedStruct) (hook : FRefCountedStruct → Heap → Heap)
    (m : Heap) : Heap × FRefCountedStruct :=
  if !self.IsValid || self.IsDestroying m || self.IsReleased then (m, self)
  else
    match self.RefCount, self.bIsDestroying with
    | some rc, some fl =>
      let m1 := m.fetchSub rc 1
      let self1 := { self with bReleased := true }
      if m1.ints rc = 0 then
        let m2 := m1.storeBool fl true
        (hook self1 m2, self1)
      else (m1, self1)
    | _, _ => (m, self)

/-- Method `ReleaseReference()` on an object whose dynamic type is `FRefCountedStruct`
itself: the virtual call of line 117 reaches the base hook. -/
def ReleaseReference (self : FRefCountedStruct) (m : Heap) : Heap × FRefCountedStruct :=
  self.ReleaseReferenceVia OnAllReferencesReleased m

/-- Method `Release()` on an object whose dynamic type is `FRefCountedStruct` itself: it
calls `ReleaseReference()`. -/
def Release (self : FRefCountedStruct) (m : Heap) : Heap × FRefCountedStruct :=
  self.ReleaseReference m

/-- Method `Initialize()`: allocates a counter holding 1 and a flag holding false. -/
def Initialize (self : FRefCountedStruct) (m : Heap) : Heap × FRefCountedStruct :=
  let a := m.newInt 1
  let b := a.1.newBool false
  (b.1, { self with RefCount := some a.2, bIsDestroying := some b.2 })

/-- Method `CopyFrom(Other)`: both shared pointers are taken from `Other`; `bReleased`
is not touched. -/
def CopyFrom (self other : FRefCountedStruct) : FRefCountedStruct :=
  { self with RefCount := other.RefCount, bIsDestroying := other.bIsDestroying }

/-- The default constructor `FRefCountedStruct()`. -/
def defaultCtor (m : Heap) : Heap × FRefCountedStruct :=
  uninit.Initialize m

/-- The body shared by the copy constructor and `operator=`:
`if (this != &Other) { CopyFrom(Other); IncrementRefCounter(); }`, where `thisAddr` and
`otherAddr` are the addresses of the two objects. -/
def copyBody (self : FRefCountedStruct) (m : Heap) (thisAddr otherAddr : Nat)
    (other : FRefCountedStruct) : Heap × FRefCountedStruct :=
  if thisAddr ≠ otherAddr then
    let self1 := self.CopyFrom other
    (self1.IncrementRefCounter m, self1)
  else (m, self)

/-- The copy constructor `FRefCountedStruct(const FRefCountedStruct& Other)`, building
the object at `thisAddr`. -/
def copyCtor (m : Heap) (thisAddr otherAddr : Nat) (other : FRefCountedStruct) :
    Heap × FRefCountedStruct :=
  uninit.copyBody m thisAddr otherAddr other

/-- The assignment `operator=(const FRefCountedStruct& Other)` on the object at
`thisAddr`. -/
def assign (self : FRefCountedStruct) (m : Heap) (thisAddr otherAddr : Nat)
    (other : FRefCountedStruct) : Heap × FRefCountedStruct :=
  self.copyBody m thisAddr otherAddr other

end FRefCountedStruct

/-- What the dispatch service has been asked to do so far. -/
structure Dispatch where
  /-- number of tasks submitted to `AsyncHelpers::ExecuteOnGameThread` -/
  tasks : Nat
  /-- number of `Future.WaitFor` calls made -/
  waits : Nat
deriving DecidableEq

/-- The future returned by the dispatch service: it reports ready after `pollsLeft` more
`WaitFor` calls. -/
structure Future where
  pollsLeft : Nat

/-- Modelled from the spec: `AsyncHelpers::ExecuteOnGameThread` (declared in `Helpers.h`,
which is not among the sources). Given a zero-argument task it schedules the task on the
designated context and returns a future-like handle exposing `IsReady()` and
`WaitFor(duration)`. The task is run once, the submission is counted, and the future
reports ready after `latency` polls. -/
def ExecuteOnGameThread {α : Type} (d : Dispatch) (latency : Nat) (task : Heap → Heap × α)
    (m : Heap) : (Heap × α) × Dispatch × Future :=
  (task m, { d with tasks := d.tasks + 1 }, ⟨latency⟩)

/-- The loop `while (!Future.IsReady()) Future.WaitFor(0.1s)`, by recursion on the number
of polls the future still needs; every iteration is one `WaitFor` call. -/
def pollUntilReady : Nat → Dispatch → Dispatch
  | 0, d => d
  | n + 1, d => pollUntilReady n { d with waits := d.waits + 1 }

namespace FRefCountedStruct

/-- The destructor body `~FRefCountedStruct()`: nothing when `bReleased` is set; otherwise
`ReleaseReference()` is submitted to the game thread and the caller polls the future
until it is ready. `latency` is the number of polls the dispatch service needs. While
this body runs the dynamic type of the object is `FRefCountedStruct`, whatever type the
object was created with, so the virtual call inside `ReleaseReference()` reaches the
base hook. -/
def destructor (self : FRefCountedStruct) (m : Heap) (d : Dispatch) (latency : Nat) :
    (Heap × FRefCountedStruct) × Dispatch :=
  if self.bReleased then ((m, self), d)
  else
    let r := ExecuteOnGameThread d latency (fun m1 => self.ReleaseReference m1) m
    (r.1, pollUntilReady r.2.2.pollsLeft r.2.1)

end FRefCountedStruct

/-- An object of `FRefCountedStruct` or of a struct derived from it: the members of its
`FRefCountedStruct` sub-object, and the implementation of the virtual
`OnAllReferencesReleased()` that the virtual table of its current dynamic type points
to. -/
structure Object where
  members : FRefCountedStruct
  OnAllReferencesReleased : FRefCountedStruct → Heap → Heap

namespace Object

/-- An object whose type is `FRefCountedStruct` itself. -/
def ofBase (h : FRefCountedStruct) : Object := ⟨h, FRefCountedStruct.OnAllReferencesReleased⟩

/-- Method `ReleaseReference()` called on the object: the virtual call of line 117 goes
through the virtual table of the object. -/
def ReleaseReference (o : Object) (m : Heap) : Heap × Object :=
  ((o.members.ReleaseReferenceVia o.OnAllReferencesReleased m).1,
    { o with members := (o.members.ReleaseReferenceVia o.OnAllReferencesReleased m).2 })

/-- Method `Release()` called on the object: calls `ReleaseReference()`. -/
def Release (o : Object) (m : Heap) : Heap × Object := o.ReleaseReference m

/-- The destruction of the object. The destructors of the derived structs run first and
do not touch the members of the base; on entry to `~FRefCountedStruct()` the dynamic type
of the object becomes `FRefCountedStruct`, so its virtual table entry is the base hook;
then the body of `~FRefCountedStruct()` runs as written: nothing when `bReleased` is set,
otherwise `ReleaseReference()` on this object is submitted to the game thread and the
caller polls until the future is ready. -/
def destructor (o : Object) (m : Heap) (d : Dispatch) (latency : Nat) :
    (Heap × Object) × Dispatch :=
  let o1 : Object :=
    { o with OnAllReferencesReleased := FRefCountedStruct.OnAllReferencesReleased }
  if o1.members.bReleased then ((m, o1), d)
  else
    let r := ExecuteOnGameThread d latency (fun m1 => o1.ReleaseReference m1) m
    (r.1, pollUntilReady r.2.2.pollsLeft r.2.1)

end Object

/-- A program state: the shared memory and the handle objects alive in it, by address.
`nextObj` is the address the next constructed object gets. The objects of a program are
of type `FRefCountedStruct` itself. -/
structure World where
  heap : Heap
  dispatch : Dispatch
  objs : Nat → Option FRefCountedStruct
  nextObj : Nat

/-- The public operations of a client program. -/
inductive Op where
  /-- declaration `FRefCountedStruct x;` -/
  | construct
  /-- declaration `FRefCountedStruct y(x);` with `x` the object at `src`; when `src` is the
  address the new object gets, this is `FRefCountedStruct x(x);`, the copy-construction
  of an object from itself -/
  | copyConstruct (src : Nat)
  /-- statement `y = x;` with `y` at `dst` and `x` at `src` -/
  | copyAssign (dst src : Nat)
  /-- statement `x.Release();` -/
  | release (i : Nat)
  /-- end of the lifetime of the object at `i`; the dispatch service needs `latency`
  polls -/
  | dispose (i latency : Nat)
deriving DecidableEq

namespace World

/-- The state of a program that has not constructed any handle yet. -/
def init : World := ⟨Heap.empty, ⟨0, 0⟩, fun _ => none, 0⟩

/-- One public operation. An operation that names an address where no object lives is
not a program; it leaves the state as it is. The one exception is the copy-construction
of an object from itself: there the source is the object under construction, whose
members are the default-initialised ones when the constructor body runs. -/
def step (w : World) : Op → World
  | .construct =>
    let r := FRefCountedStruct.defaultCtor w.heap
    ⟨r.1, w.dispatch, Function.update w.objs w.nextObj (some r.2), w.nextObj + 1⟩
  | .copyConstruct src =>
    if src = w.nextObj then
      let r := FRefCountedStruct.copyCtor w.heap w.nextObj src FRefCountedStruct.uninit
      ⟨r.1, w.dispatch, Function.update w.objs w.nextObj (some r.2), w.nextObj + 1⟩
    else
      match w.objs src with
      | some o =>
        let r := FRefCountedStruct.copyCtor w.heap w.nextObj src o
        ⟨r.1, w.dispatch, Function.update w.objs w.nextObj (some r.2), w.nextObj + 1⟩
      | none => w
  | .copyAssign dst src =>
    match w.objs dst, w.objs src with
    | some d, some o =>
      let r := d.assign w.heap dst src o
      ⟨r.1, w.dispatch, Function.update w.objs dst (some r.2), w.nextObj⟩
    | _, _ => w
  | .release i =>
    match w.objs i with
    | some h =>
      let r := h.Release w.heap
      ⟨r.1, w.dispatch, Function.update w.objs i (some r.2), w.nextObj⟩
    | none => w
  | .dispose i latency =>
    match w.objs i with
    | some h =>
      let r := h.destructor w.heap w.dispatch latency
      ⟨r.1.1, r.2, Function.update w.objs i none, w.nextObj⟩
    | none => w

/-- Running a list of operations, first to last, from `w`. -/
def runFrom (w : World) (ops : List Op) : World := ops.foldl step w

/-- Running a program from the initial state. -/
def run (ops : List Op) : World := runFrom init ops

end World

/-- Copy operations: the ones that can call `IncrementRefCounter`. -/
def Op.isCopy : Op → Bool
  | .copyConstruct _ => true
  | .copyAssign _ _ => true
  | _ => false

/-- Number of copy operations in a program. -/
def copyOps (ops : List Op) : Nat := ops.countP Op.isCopy

/-- What a public operation does to the shared memory: nothing, the allocation of a
block, an increment, a decrement to a non-zero count, or the decrement to zero with the
store of the flag and the hook call. -/
inductive Event where
  | idle
  | alloc
  | inc (k : Nat)
  | dec (k : Nat)
  | fin (k : Nat)

/-- The memory after the final release of the block at `k`: decrement, store of the
flag, hook call on a released handle of that block. -/
def Heap.finalize (m : Heap) (k : Nat) : Heap :=
  FRefCountedStruct.OnAllReferencesReleased ⟨some k, some k, true⟩
    ((m.fetchSub k 1).storeBool k true)

/-- The memory `m` turns into under an event. -/
def Heap.apply (m : Heap) : Event → Heap
  | .idle => m
  | .alloc => (FRefCountedStruct.uninit.Initialize m).1
  | .inc k => m.fetchAdd k 1
  | .dec k => m.fetchSub k 1
  | .fin k => m.finalize k

/-- When an event can happen: increments and decrements act on an allocated block that
is not destroying, and the decrement is final exactly when it yields zero. -/
def Heap.Enabled (m : Heap) : Event → Prop
  | .idle => True
  | .alloc => True
  | .inc k => k < m.nextInt ∧ m.bools k = false
  | .dec k => k < m.nextInt ∧ m.bools k = false ∧ wrapInt32 (m.ints k - 1) ≠ 0
  | .fin k => k < m.nextInt ∧ m.bools k = false ∧ wrapInt32 (m.ints k - 1) = 0

/-- Invariant of the shared memory in every reachable state. -/
structure Heap.Inv (m : Heap) : Prop where
  next_eq : m.nextInt = m.nextBool
  range : ∀ k, -2147483648 ≤ m.ints k ∧ m.ints k < 2147483648
  hook : ∀ k, m.hookCount k = if m.bools k then 1 else 0
  freshBool : ∀ k, m.nextBool ≤ k → m.bools k = false
  freshInt : ∀ k, m.nextInt ≤ k → m.ints k = 0

/-- A handle whose two pointers name the counter and the flag of one allocated block. -/
def FRefCountedStruct.Linked (h : FRefCountedStruct) (m : Heap) : Prop :=
  ∃ k, k < m.nextInt ∧ h.RefCount = some k ∧ h.bIsDestroying = some k

/-- A handle as a program can have it: on one allocated block, or without a block at
all (both pointers null). -/
def FRefCountedStruct.Sound (h : FRefCountedStruct) (m : Heap) : Prop :=
  h.Linked m ∨ (h.RefCount = none ∧ h.bIsDestroying = none)

/-- Invariant of every reachable program state. -/
structure World.WF (w : World) : Prop where
  heap : w.heap.Inv
  sound : ∀ i h, w.objs i = some h → h.Sound w.heap
  fresh : ∀ i, w.nextObj ≤ i → w.objs i = none

/-- The counters as they are while no increment has wrapped around, `n` being a bound on
the number of increments made so far: a block that is not destroying has a count between
1 and `n + 1`, a destroying block has count 0. -/
def Heap.Counted (m : Heap) (n : Nat) : Prop :=
  ∀ k, k < m.nextInt →
    (m.bools k = false → 1 ≤ m.ints k ∧ m.ints k ≤ 1 + (n : Int)) ∧
    (m.bools k = true → m.ints k = 0)

/-- Whether a list of copy sources is well formed when `n` objects exist: each copy reads
an object that exists by then, and its result is the next object. -/
def validSources : Nat → List Nat → Bool
  | _, [] => true
  | n, s :: rest => decide (s < n) && validSources (n + 1) rest

/-- The program that constructs one handle, copy-constructs one handle from each source
in `srcs`, then calls `Release()` on the handles listed in `order`. -/
def shareProgram (srcs order : List Nat) : List Op :=
  .construct :: (srcs.map .copyConstruct ++ order.map .release)

/-- The state after the copies of that program: `n` unreleased handles on block 0, whose
counter holds `n` (in int32 arithmetic), and no hook call yet. -/
def World.Shared (w : World) (n : Nat) : Prop :=
  w.nextObj = n ∧ (∀ i, i < n → w.objs i = some ⟨some 0, some 0, false⟩) ∧
  w.heap.ints 0 = wrapInt32 n ∧ w.heap.bools 0 = false ∧ w.heap.hooks = []

/-- The state while the handles listed in `rel` have been released, out of `n` handles on
block 0. -/
def World.Releasing (w : World) (n : Nat) (rel : List Nat) : Prop :=
  (∀ i, i < n → ∃ b, w.objs i = some ⟨some 0, some 0, b⟩ ∧
    (w.heap.bools 0 = false → (b = true ↔ i ∈ rel))) ∧
  (w.heap.bools 0 = false → w.heap.hooks = [] ∧
    w.heap.ints 0 = wrapInt32 ((n : Int) - (rel.length : Int)) ∧
    ∀ j : Nat, 1 ≤ j → j ≤ rel.length → wrapInt32 ((n : Int) - (j : Int)) ≠ 0) ∧
  (w.heap.bools 0 = true → w.heap.hooks.length = 1 ∧ w.heap.ints 0 = 0 ∧
    ∃ j : Nat, 1 ≤ j ∧ j ≤ rel.length ∧ wrapInt32 ((n : Int) - (j : Int)) = 0)

/-- Every destroying block has count 0. -/
def Heap.Zeroed (m : Heap) : Prop := ∀ k, m.bools k = true → m.ints k = 0

/-- The counters of the blocks that are not destroying, up to wrap-around, `n` being a
bound on the number of increments made so far: the count is the int32 image of a number
between 1 and `n + 1`. -/
def Heap.Modular (m : Heap) (n : Nat) : Prop :=
  ∀ k, k < m.nextInt → m.bools k = false →
    ∃ t : Int, 1 ≤ t ∧ t ≤ 1 + (n : Int) ∧ m.ints k = wrapInt32 t

/-- Where a thread stands inside `ReleaseReference()`. Each position is one statement of
the source that accesses an atomic cell: the guards of line 106 (whose only access to
shared memory is the load in `IsDestroying()`), the `fetch_sub` of line 111, the store
to `bReleased` of line 112, the `load` of line 114, the store to the destroying flag of
line 116 and the hook call of line 117. -/
inductive Pc where
  | guards
  | fetchSub
  | storeReleased
  | loadCount
  | storeDestroying
  | callHook
  | done
deriving DecidableEq

/-- A thread running `Release()` on its own handle object. -/
structure Thread where
  self : FRefCountedStruct
  pc : Pc
deriving DecidableEq

/-- A thread about to call `Release()` on `h`. -/
def Thread.start (h : FRefCountedStruct) : Thread := ⟨h, .guards⟩

/-- One atomic step of a thread inside `ReleaseReference()`. -/
def Thread.step (t : Thread) (m : Heap) : Heap × Thread :=
  match t.pc with
  | .guards =>
    if !t.self.IsValid || t.self.IsDestroying m || t.self.IsReleased then
      (m, { t with pc := .done })
    else (m, { t with pc := .fetchSub })
  | .fetchSub =>
    match t.self.RefCount with
    | some rc => (m.fetchSub rc 1, { t with pc := .storeReleased })
    | none => (m, { t with pc := .done })
  | .storeReleased => (m, ⟨{ t.self with bReleased := true }, .loadCount⟩)
  | .loadCount =>
    match t.self.RefCount with
    | some rc =>
      if m.ints rc = 0 then (m, { t with pc := .storeDestroying })
      else (m, { t with pc := .done })
    | none => (m, { t with pc := .done })
  | .storeDestroying =>
    match t.self.bIsDestroying with
    | some fl => (m.storeBool fl true, { t with pc := .callHook })
    | none => (m, { t with pc := .done })
  | .callHook => (t.self.OnAllReferencesReleased m, { t with pc := .done })
  | .done => (m, t)

/-- A thread run for `n` steps without interruption. -/
def Thread.steps : Nat → Thread → Heap → Heap × Thread
  | 0, t, m => (m, t)
  | n + 1, t, m => Thread.steps n (t.step m).2 (t.step m).1

/-- Threads releasing concurrently: the shared memory and the state of every thread. -/
structure Conc where
  heap : Heap
  threads : List Thread

/-- The thread at position `i` makes one atomic step. -/
def Conc.step (c : Conc) (i : Nat) : Conc :=
  match c.threads.get? i with
  | some t => ⟨(t.step c.heap).1, c.threads.set i (t.step c.heap).2⟩
  | none => c

/-- An interleaving: the threads step in the order given by the schedule. -/
def Conc.run (c : Conc) (schedule : List Nat) : Conc := schedule.foldl Conc.step c

/-- Whether an object slot holds a live handle whose counter is the cell `k` and whose
released flag is false. -/
def holds (k : Nat) : Option FRefCountedStruct → Bool
  | some h => decide (h.RefCount = some k) && !h.bReleased
  | none => false

/-- Number of slots below `n` that hold an unreleased handle of block `k`. -/
def countHolders (objs : Nat → Option FRefCountedStruct) (k : Nat) : Nat → Nat
  | 0 => 0
  | n + 1 => countHolders objs k n + (holds k (objs n)).toNat

/-- Number of existing handles that share block `k` and have released = false. -/
def World.holders (w : World) (k : Nat) : Nat := countHolders w.objs k w.nextObj

/-- By how much an event can raise the number of unreleased holders of block `k`. -/
def Heap.delta (m : Heap) : Event → Nat → Int
  | .idle, _ => 0
  | .alloc, k => if k = m.nextInt then 1 else 0
  | .inc a, k => if k = a then 1 else 0
  | .dec a, k => if k = a then -1 else 0
  | .fin a, k => if k = a then -1 else 0

/-- The counter of every block that is not destroying is the int32 image of a number
`t` between 1 and `n + 1` that is at least the number of unreleased holders of the
block; `n` bounds the number of increments made so far. -/
def World.Tracked (w : World) (n : Nat) : Prop :=
  ∀ k, k < w.heap.nextInt → w.heap.bools k = false →
    ∃ t : Int, (w.holders k : Int) ≤ t ∧ 1 ≤ t ∧ t ≤ 1 + (n : Int) ∧
      w.heap.ints k = wrapInt32 t

/-- Whether `op`, issued in state `w`, is `FRefCountedStruct x(x);`: the copy-construction
of an object from itself. -/
def Op.isSelfCopy (w : World) : Op → Bool
  | .copyConstruct src => decide (src = w.nextObj)
  | _ => false

/-- Whether the program `ops`, run from `w`, never copy-constructs an object from
itself. -/
def World.selfCopyFree (w : World) : List Op → Bool
  | [] => true
  | op :: ops => !op.isSelfCopy w && (w.step op).selfCopyFree ops

/-! ## Single-operation facts -/

open FRefCountedStruct

/-- Past any of its three guards `ReleaseReference` returns at once. -/
theorem releaseReference_of_guard (self : FRefCountedStruct) (m : Heap)
    (h : self.IsValid = false ∨ self.IsDestroying m = true ∨ self.IsReleased = true) :
    self.ReleaseReference m = (m, self) := by
  unfold FRefCountedStruct.ReleaseReference FRefCountedStruct.ReleaseReferenceVia
  rcases h with h | h | h <;> simp [h]

/-- What `ReleaseReference` computes when no guard holds. -/
theorem releaseReference_of_live (self : FRefCountedStruct) (m : Heap) (rc fl : Nat)
    (hrc : self.RefCount = some rc) (hfl : self.bIsDestroying = some fl)
    (hd : m.bools fl = false) (hr : self.bReleased = false) :
    self.ReleaseReference m =
      if wrapInt32 (m.ints rc - 1) = 0 then
        (OnAllReferencesReleased { self with bReleased := true }
          ((m.fetchSub rc 1).storeBool fl true), { self with bReleased := true })
      else (m.fetchSub rc 1, { self with bReleased := true }) := by
  unfold FRefCountedStruct.ReleaseReference FRefCountedStruct.ReleaseReferenceVia
  simp [FRefCountedStruct.IsValid, FRefCountedStruct.IsDestroying,
    FRefCountedStruct.IsReleased, hrc, hfl, hd, hr, Heap.fetchSub]

/-- A handle past the guards has both pointers and a clear flag. -/
theorem live_cases (self : FRefCountedStruct) (m : Heap)
    (hv : self.IsValid = true) (hd : self.IsDestroying m = false) :
    ∃ rc fl, self.RefCount = some rc ∧ self.bIsDestroying = some fl ∧ m.bools fl = false := by
  obtain ⟨r, f, b⟩ := self
  cases r with
  | none => simp [FRefCountedStruct.IsValid] at hv
  | some rc =>
    cases f with
    | none => simp [FRefCountedStruct.IsDestroying] at hd
    | some fl => exact ⟨rc, fl, rfl, rfl, by simpa [FRefCountedStruct.IsDestroying] using hd⟩

/-- The object a copy from a distinct object yields: the pointers of the source, the
released flag of the destination. -/
theorem copyBody_snd (self other : FRefCountedStruct) (m : Heap) (thisAddr otherAddr : Nat)
    (hne : thisAddr ≠ otherAddr) :
    (self.copyBody m thisAddr otherAddr other).2 = self.CopyFrom other := by
  simp [FRefCountedStruct.copyBody, hne]

/-- The memory after a copy from a distinct object. -/
theorem copyBody_fst (self other : FRefCountedStruct) (m : Heap) (thisAddr otherAddr : Nat)
    (hne : thisAddr ≠ otherAddr) :
    (self.copyBody m thisAddr otherAddr other).1 = (self.CopyFrom other).IncrementRefCounter m := by
  simp [FRefCountedStruct.copyBody, hne]

/-- `IncrementRefCounter` does nothing on a handle that reports destroying. -/
theorem increment_of_destroying (self : FRefCountedStruct) (m : Heap)
    (hd : self.IsDestroying m = true) : self.IncrementRefCounter m = m := by
  unfold FRefCountedStruct.IncrementRefCounter
  cases self.RefCount <;> simp [hd]

/-! ## The effect of one operation on the shared memory -/

theorem wrapInt32_range (x : Int) :
    -2147483648 ≤ wrapInt32 x ∧ wrapInt32 x < 2147483648 := by
  unfold wrapInt32
  omega

theorem hookCount_finalize (m : Heap) (k j : Nat) :
    (m.finalize k).hookCount j = m.hookCount j + if j = k then 1 else 0 := by
  by_cases h : j = k
  · subst h
    simp [Heap.finalize, Heap.hookCount, FRefCountedStruct.OnAllReferencesReleased,
      Heap.fetchSub, Heap.storeBool, List.filter_append]
  · have h2 : ¬ k = j := fun e => h e.symm
    simp [Heap.finalize, Heap.hookCount, FRefCountedStruct.OnAllReferencesReleased,
      Heap.fetchSub, Heap.storeBool, List.filter_append, h, h2]

/-- Every event keeps the memory invariant. -/
theorem Heap.Inv.preserved {m : Heap} (hm : m.Inv) (e : Event) (he : m.Enabled e) :
    (m.apply e).Inv := by
  obtain ⟨h1, h2, h3, h4, h5⟩ := hm
  cases e with
  | idle => exact ⟨h1, h2, h3, h4, h5⟩
  | alloc =>
    refine ⟨?_, ?_, ?_, ?_, ?_⟩
    · simp [Heap.apply, FRefCountedStruct.Initialize, Heap.newInt, Heap.newBool, h1]
    · intro k
      simp only [Heap.apply, FRefCountedStruct.Initialize, Heap.newInt, Heap.newBool]
      by_cases hk : k = m.nextInt
      · subst hk; simp
      · simp [Function.update_noteq hk]; exact h2 k
    · intro k
      simp only [Heap.apply, FRefCountedStruct.Initialize, Heap.newInt, Heap.newBool,
        Heap.hookCount]
      by_cases hk : k = m.nextBool
      · subst hk
        have := h3 m.nextBool
        rw [h4 _ (le_refl _)] at this
        simpa [Heap.hookCount] using this
      · simpa [Function.update_noteq hk, Heap.hookCount] using h3 k
    · intro k hk
      simp only [Heap.apply, FRefCountedStruct.Initialize, Heap.newInt, Heap.newBool] at hk ⊢
      have hne : k ≠ m.nextBool := by omega
      rw [Function.update_noteq hne]
      exact h4 k (by omega)
    · intro k hk
      simp only [Heap.apply, FRefCountedStruct.Initialize, Heap.newInt, Heap.newBool] at hk ⊢
      have hne : k ≠ m.nextInt := by omega
      rw [Function.update_noteq hne]
      exact h5 k (by omega)
  | inc a =>
    obtain ⟨ha, hb⟩ := he
    refine ⟨h1, ?_, h3, h4, ?_⟩
    · intro k
      simp only [Heap.apply, Heap.fetchAdd]
      by_cases hk : k = a
      · subst hk; simpa using wrapInt32_range _
      · simpa [Function.update_noteq hk] using h2 k
    · intro k hk
      simp only [Heap.apply, Heap.fetchAdd] at hk ⊢
      have hne : k ≠ a := by omega
      rw [Function.update_noteq hne]
      exact h5 k hk
  | dec a =>
    obtain ⟨ha, hb, hc⟩ := he
    refine ⟨h1, ?_, h3, h4, ?_⟩
    · intro k
      simp only [Heap.apply, Heap.fetchSub]
      by_cases hk : k = a
      · subst hk; simpa using wrapInt32_range _
      · simpa [Function.update_noteq hk] using h2 k
    · intro k hk
      simp only [Heap.apply, Heap.fetchSub] at hk ⊢
      have hne : k ≠ a := by omega
      rw [Function.update_noteq hne]
      exact h5 k hk
  | fin a =>
    obtain ⟨ha, hb, hc⟩ := he
    refine ⟨h1, ?_, ?_, ?_, ?_⟩
    · intro k
      simp only [Heap.apply, Heap.finalize, FRefCountedStruct.OnAllReferencesReleased,
        Heap.fetchSub, Heap.storeBool]
      by_cases hk : k = a
      · subst hk; simpa using wrapInt32_range _
      · simpa [Function.update_noteq hk] using h2 k
    · intro k
      simp only [Heap.apply]
      rw [hookCount_finalize]
      by_cases hk : k = a
      · subst hk
        have := h3 k
        rw [hb] at this
        simp [Heap.finalize, FRefCountedStruct.OnAllReferencesReleased, Heap.fetchSub,
          Heap.storeBool, this]
      · have := h3 k
        simp [Heap.finalize, FRefCountedStruct.OnAllReferencesReleased, Heap.fetchSub,
          Heap.storeBool, Function.update_noteq hk, hk, this]
    · intro k hk
      simp only [Heap.apply, Heap.finalize, FRefCountedStruct.OnAllReferencesReleased,
        Heap.fetchSub, Heap.storeBool] at hk ⊢
      have hne : k ≠ a := by omega
      rw [Function.update_noteq hne]
      exact h4 k hk
    · intro k hk
      simp only [Heap.apply, Heap.finalize, FRefCountedStruct.OnAllReferencesReleased,
        Heap.fetchSub, Heap.storeBool] at hk ⊢
      have hne : k ≠ a := by omega
      rw [Function.update_noteq hne]
      exact h5 k hk

/-- No event lowers the allocation counter. -/
theorem Heap.nextInt_le_apply (m : Heap) (e : Event) : m.nextInt ≤ (m.apply e).nextInt := by
  cases e <;>
    simp [Heap.apply, FRefCountedStruct.Initialize, Heap.newInt, Heap.newBool, Heap.fetchAdd,
      Heap.fetchSub, Heap.finalize, FRefCountedStruct.OnAllReferencesReleased, Heap.storeBool]

theorem FRefCountedStruct.Linked.mono {h : FRefCountedStruct} {m m2 : Heap}
    (hl : h.Linked m) (hle : m.nextInt ≤ m2.nextInt) : h.Linked m2 := by
  obtain ⟨k, hk, h1, h2⟩ := hl
  exact ⟨k, by omega, h1, h2⟩

/-- `IncrementRefCounter` on a linked handle is an increment of its block, or nothing. -/
theorem increment_event (h : FRefCountedStruct) (m : Heap) (hl : h.Linked m) :
    h.IncrementRefCounter m = m ∨
    ∃ k, h.RefCount = some k ∧ m.Enabled (.inc k) ∧ h.IncrementRefCounter m = m.apply (.inc k) := by
  obtain ⟨k, hk, h1, h2⟩ := hl
  cases hb : m.bools k with
  | true =>
    left
    exact increment_of_destroying h m (by simp [FRefCountedStruct.IsDestroying, h2, hb])
  | false =>
    right
    refine ⟨k, h1, ⟨hk, hb⟩, ?_⟩
    simp [FRefCountedStruct.IncrementRefCounter, FRefCountedStruct.IsDestroying, h1, h2, hb,
      Heap.apply]

/-- `ReleaseReference` on a linked handle is nothing, a decrement, or the final
decrement of its block; the handle keeps its pointers. -/
theorem release_event (h : FRefCountedStruct) (m : Heap) (hl : h.Linked m) :
    (h.ReleaseReference m).2.RefCount = h.RefCount ∧
    (h.ReleaseReference m).2.bIsDestroying = h.bIsDestroying ∧
    ((h.ReleaseReference m = (m, h) ∧
        (m.bools (h.RefCount.getD 0) = true ∨ h.bReleased = true)) ∨
     ∃ k, h.RefCount = some k ∧ h.bReleased = false ∧
        (h.ReleaseReference m).2.bReleased = true ∧
        ((m.Enabled (.dec k) ∧ (h.ReleaseReference m).1 = m.apply (.dec k)) ∨
         (m.Enabled (.fin k) ∧ (h.ReleaseReference m).1 = m.apply (.fin k)))) := by
  obtain ⟨k, hk, h1, h2⟩ := hl
  by_cases hg : m.bools k = true ∨ h.bReleased = true
  · have hgd : h.IsValid = false ∨ h.IsDestroying m = true ∨ h.IsReleased = true := by
      rcases hg with hg | hg
      · right; left; simp [FRefCountedStruct.IsDestroying, h2, hg]
      · right; right; exact hg
    rw [releaseReference_of_guard h m hgd]
    refine ⟨rfl, rfl, Or.inl ⟨rfl, ?_⟩⟩
    simpa [h1] using hg
  · have hb : m.bools k = false := by
      cases hx : m.bools k <;> simp_all
    have hr : h.bReleased = false := by
      cases hx : h.bReleased <;> simp_all
    rw [releaseReference_of_live h m k k h1 h2 hb hr]
    by_cases hz : wrapInt32 (m.ints k - 1) = 0
    · rw [if_pos hz]
      refine ⟨rfl, rfl, Or.inr ⟨k, h1, hr, rfl, Or.inr ⟨⟨hk, hb, hz⟩, ?_⟩⟩⟩
      obtain ⟨r, f, b⟩ := h
      simp only at h1 h2
      subst h1 h2
      rfl
    · rw [if_neg hz]
      exact ⟨rfl, rfl, Or.inr ⟨k, h1, hr, rfl, Or.inl ⟨⟨hk, hb, hz⟩, rfl⟩⟩⟩


theorem FRefCountedStruct.Sound.mono_heap {h : FRefCountedStruct} {m m2 : Heap}
    (hs : h.Sound m) (hle : m.nextInt ≤ m2.nextInt) : h.Sound m2 := by
  rcases hs with hl | hn
  · exact Or.inl (hl.mono hle)
  · exact Or.inr hn

/-- A sound handle that has a counter is linked to that block. -/
theorem FRefCountedStruct.Sound.of_refCount {h : FRefCountedStruct} {m : Heap}
    (hs : h.Sound m) (k : Nat) (hk : h.RefCount = some k) :
    k < m.nextInt ∧ h.bIsDestroying = some k := by
  rcases hs with ⟨k2, hk2, e1, e2⟩ | ⟨hn, _⟩
  · rw [hk] at e1
    cases e1
    exact ⟨hk2, e2⟩
  · rw [hk] at hn
    cases hn

/-- `IncrementRefCounter` on a sound handle is an increment of its block, or nothing. -/
theorem increment_sound (h : FRefCountedStruct) (m : Heap) (hs : h.Sound m) :
    h.IncrementRefCounter m = m ∨
    ∃ k, h.RefCount = some k ∧ m.Enabled (.inc k) ∧ h.IncrementRefCounter m = m.apply (.inc k) := by
  rcases hs with hl | ⟨hn, _⟩
  · exact increment_event h m hl
  · left
    simp [FRefCountedStruct.IncrementRefCounter, hn]

/-- `ReleaseReference` on a sound handle is nothing, a decrement, or the final decrement
of its block; the handle keeps its pointers. -/
theorem release_sound (h : FRefCountedStruct) (m : Heap) (hs : h.Sound m) :
    (h.ReleaseReference m).2.RefCount = h.RefCount ∧
    (h.ReleaseReference m).2.bIsDestroying = h.bIsDestroying ∧
    ((h.ReleaseReference m = (m, h) ∧
        (h.RefCount = none ∨ m.bools (h.RefCount.getD 0) = true ∨ h.bReleased = true)) ∨
     ∃ k, h.RefCount = some k ∧ h.bReleased = false ∧
        (h.ReleaseReference m).2.bReleased = true ∧
        ((m.Enabled (.dec k) ∧ (h.ReleaseReference m).1 = m.apply (.dec k)) ∨
         (m.Enabled (.fin k) ∧ (h.ReleaseReference m).1 = m.apply (.fin k)))) := by
  rcases hs with hl | ⟨hn, _⟩
  · obtain ⟨h1, h2, h3⟩ := release_event h m hl
    refine ⟨h1, h2, ?_⟩
    rcases h3 with ⟨h3, h4⟩ | h3
    · exact Or.inl ⟨h3, Or.inr h4⟩
    · exact Or.inr h3
  · have hg := releaseReference_of_guard h m (Or.inl (by simp [FRefCountedStruct.IsValid, hn]))
    rw [hg]
    exact ⟨rfl, rfl, Or.inl ⟨rfl, Or.inl hn⟩⟩

/-- A state built from a well-formed one by one event and one write to the object store
is well formed. -/
theorem World.WF.update {w : World} (hw : w.WF) (e : Event) (he : w.heap.Enabled e)
    (j n : Nat) (v : Option FRefCountedStruct) (d : Dispatch)
    (hv : ∀ h, v = some h → h.Sound (w.heap.apply e)) (hj : j < n) (hn : w.nextObj ≤ n) :
    World.WF ⟨w.heap.apply e, d, Function.update w.objs j v, n⟩ := by
  refine ⟨hw.heap.preserved e he, ?_, ?_⟩
  · intro i h hi
    simp only at hi
    by_cases hij : i = j
    · subst hij
      rw [Function.update_same] at hi
      exact hv h hi
    · rw [Function.update_noteq hij] at hi
      exact (hw.sound i h hi).mono_heap (Heap.nextInt_le_apply _ _)
  · intro i hi
    simp only at hi ⊢
    have hij : i ≠ j := by omega
    rw [Function.update_noteq hij]
    exact hw.fresh i (by omega)

/-- A live object has an address below `nextObj`. -/
theorem World.lt_nextObj (w : World) (hw : w.WF) (i : Nat) (h : FRefCountedStruct)
    (hi : w.objs i = some h) : i < w.nextObj := by
  by_contra hx
  have := hw.fresh i (by omega)
  rw [hi] at this
  cases this

/-- The state after `FRefCountedStruct x(x)`: a new object without a block. -/
theorem World.step_selfCopy (w : World) :
    w.step (.copyConstruct w.nextObj) =
      ⟨w.heap, w.dispatch, Function.update w.objs w.nextObj (some uninit), w.nextObj + 1⟩ := by
  simp [World.step, FRefCountedStruct.copyCtor, FRefCountedStruct.copyBody]

/-- The state after `FRefCountedStruct y(x)` for a live object `x`. -/
theorem World.step_copyConstruct (w : World) (src : Nat) (o : FRefCountedStruct)
    (ho : w.objs src = some o) (hne : w.nextObj ≠ src) :
    w.step (.copyConstruct src) =
      ⟨(uninit.CopyFrom o).IncrementRefCounter w.heap, w.dispatch,
        Function.update w.objs w.nextObj (some (uninit.CopyFrom o)), w.nextObj + 1⟩ := by
  have hne2 : ¬ src = w.nextObj := fun e => hne e.symm
  simp [World.step, ho, FRefCountedStruct.copyCtor, FRefCountedStruct.copyBody, hne, hne2]

/-- A copy-construction that names neither a live object nor the new object itself. -/
theorem World.step_copyConstruct_none (w : World) (src : Nat) (ho : w.objs src = none)
    (hne : w.nextObj ≠ src) : w.step (.copyConstruct src) = w := by
  have hne2 : ¬ src = w.nextObj := fun e => hne e.symm
  simp [World.step, ho, hne2]

/-- One public operation from a well-formed state performs one enabled event on the
shared memory and leads to a well-formed state; only copy operations increment. -/
theorem World.step_event (w : World) (hw : w.WF) (op : Op) :
    ∃ e, w.heap.Enabled e ∧ (w.step op).heap = w.heap.apply e ∧ (w.step op).WF ∧
      (∀ k, e = .inc k → op.isCopy = true) := by
  cases op with
  | construct =>
    refine ⟨.alloc, trivial, rfl, ?_, by intro k hk; cases hk⟩
    refine hw.update .alloc trivial _ _ _ _ ?_ (Nat.lt_succ_self _) (Nat.le_succ _)
    intro h hh
    cases hh
    refine Or.inl ⟨w.heap.nextInt, ?_, rfl, ?_⟩
    · simp [Heap.apply, FRefCountedStruct.Initialize, Heap.newInt, Heap.newBool]
    · simp [FRefCountedStruct.defaultCtor, FRefCountedStruct.uninit,
        FRefCountedStruct.Initialize, Heap.newInt, Heap.newBool, hw.heap.next_eq]
  | copyConstruct src =>
    by_cases hself : src = w.nextObj
    · subst hself
      rw [World.step_selfCopy]
      refine ⟨.idle, trivial, rfl, ?_, by intro k hk; cases hk⟩
      exact hw.update .idle trivial _ _ _ _
        (by intro h hh; cases hh; exact Or.inr ⟨rfl, rfl⟩)
        (Nat.lt_succ_self _) (Nat.le_succ _)
    · have hne : w.nextObj ≠ src := fun e => hself e.symm
      cases ho : w.objs src with
      | none =>
        rw [World.step_copyConstruct_none w src ho hne]
        exact ⟨.idle, trivial, rfl, hw, by intro k hk; cases hk⟩
      | some o =>
        have hlo : (uninit.CopyFrom o).Sound w.heap := by
          rcases hw.sound src o ho with ⟨k, hk, h1, h2⟩ | ⟨h1, h2⟩
          · exact Or.inl ⟨k, hk, h1, h2⟩
          · exact Or.inr ⟨h1, h2⟩
        rw [World.step_copyConstruct w src o ho hne]
        rcases increment_sound _ _ hlo with hi | ⟨k, hk, hen, hi⟩
        · rw [hi]
          refine ⟨.idle, trivial, rfl, ?_, by intro k hk; cases hk⟩
          exact hw.update .idle trivial _ _ _ _ (by intro h hh; cases hh; exact hlo)
            (Nat.lt_succ_self _) (Nat.le_succ _)
        · rw [hi]
          refine ⟨.inc k, hen, rfl, ?_, by intro _ _; rfl⟩
          exact hw.update (.inc k) hen _ _ _ _
            (by intro h hh; cases hh; exact hlo.mono_heap (Heap.nextInt_le_apply _ _))
            (Nat.lt_succ_self _) (Nat.le_succ _)
  | copyAssign dst src =>
    cases hd : w.objs dst with
    | none =>
      refine ⟨.idle, trivial, ?_, ?_, by intro k hk; cases hk⟩
      · simp [World.step, hd, Heap.apply]
      · simpa [World.step, hd] using hw
    | some d =>
      cases ho : w.objs src with
      | none =>
        refine ⟨.idle, trivial, ?_, ?_, by intro k hk; cases hk⟩
        · simp [World.step, hd, ho, Heap.apply]
        · simpa [World.step, hd, ho] using hw
      | some o =>
        have hdn := w.lt_nextObj hw dst d hd
        by_cases hne : dst = src
        · subst hne
          have hst : w.step (.copyAssign dst dst) =
              ⟨w.heap, w.dispatch, Function.update w.objs dst (some d), w.nextObj⟩ := by
            simp [World.step, hd, FRefCountedStruct.assign, FRefCountedStruct.copyBody]
          rw [hst]
          refine ⟨.idle, trivial, rfl, ?_, by intro k hk; cases hk⟩
          exact hw.update .idle trivial _ _ _ _
            (by intro h hh; cases hh; exact hw.sound dst d hd) hdn (le_refl _)
        · have hlo : (d.CopyFrom o).Sound w.heap := by
            rcases hw.sound src o ho with ⟨k, hk, h1, h2⟩ | ⟨h1, h2⟩
            · exact Or.inl ⟨k, hk, h1, h2⟩
            · exact Or.inr ⟨h1, h2⟩
          have hst : w.step (.copyAssign dst src) =
              ⟨(d.CopyFrom o).IncrementRefCounter w.heap, w.dispatch,
                Function.update w.objs dst (some (d.CopyFrom o)), w.nextObj⟩ := by
            simp [World.step, hd, ho, FRefCountedStruct.assign, FRefCountedStruct.copyBody, hne]
          rw [hst]
          rcases increment_sound _ _ hlo with hi | ⟨k, hk, hen, hi⟩
          · rw [hi]
            refine ⟨.idle, trivial, rfl, ?_, by intro k hk; cases hk⟩
            exact hw.update .idle trivial _ _ _ _ (by intro h hh; cases hh; exact hlo)
              hdn (le_refl _)
          · rw [hi]
            refine ⟨.inc k, hen, rfl, ?_, by intro _ _; rfl⟩
            exact hw.update (.inc k) hen _ _ _ _
              (by intro h hh; cases hh; exact hlo.mono_heap (Heap.nextInt_le_apply _ _))
              hdn (le_refl _)
  | release i =>
    cases hi : w.objs i with
    | none =>
      refine ⟨.idle, trivial, ?_, ?_, by intro k hk; cases hk⟩
      · simp [World.step, hi, Heap.apply]
      · simpa [World.step, hi] using hw
    | some h =>
      have hin := w.lt_nextObj hw i h hi
      have hs := hw.sound i h hi
      have hst : w.step (.release i) =
          ⟨(h.ReleaseReference w.heap).1, w.dispatch,
            Function.update w.objs i (some (h.ReleaseReference w.heap).2), w.nextObj⟩ := by
        simp [World.step, hi, FRefCountedStruct.Release]
      rw [hst]
      obtain ⟨e1, e2, hc⟩ := release_sound h w.heap hs
      have hl2 : ∀ m2 : Heap, w.heap.nextInt ≤ m2.nextInt →
          (h.ReleaseReference w.heap).2.Sound m2 := by
        intro m2 hm2
        rcases hs with ⟨k0, hk0, hr1, hr2⟩ | ⟨hr1, hr2⟩
        · exact Or.inl ⟨k0, by omega, by rw [e1, hr1], by rw [e2, hr2]⟩
        · exact Or.inr ⟨by rw [e1, hr1], by rw [e2, hr2]⟩
      rcases hc with ⟨hc, _⟩ | ⟨k, _, _, _, ⟨hen, hc⟩ | ⟨hen, hc⟩⟩
      · refine ⟨.idle, trivial, by rw [hc]; rfl, ?_, by intro k hk; cases hk⟩
        have := hw.update .idle trivial i w.nextObj (some (h.ReleaseReference w.heap).2)
          w.dispatch (by intro h hh; cases hh; exact hl2 _ (le_refl _)) hin (le_refl _)
        rw [hc] at this ⊢
        exact this
      · refine ⟨.dec k, hen, hc, ?_, by intro k hk; cases hk⟩
        rw [hc]
        exact hw.update (.dec k) hen _ _ _ _
          (by intro h hh; cases hh; exact hl2 _ (Heap.nextInt_le_apply _ _)) hin (le_refl _)
      · refine ⟨.fin k, hen, hc, ?_, by intro k hk; cases hk⟩
        rw [hc]
        exact hw.update (.fin k) hen _ _ _ _
          (by intro h hh; cases hh; exact hl2 _ (Heap.nextInt_le_apply _ _)) hin (le_refl _)
  | dispose i latency =>
    cases hi : w.objs i with
    | none =>
      refine ⟨.idle, trivial, ?_, ?_, by intro k hk; cases hk⟩
      · simp [World.step, hi, Heap.apply]
      · simpa [World.step, hi] using hw
    | some h =>
      have hin := w.lt_nextObj hw i h hi
      have hs := hw.sound i h hi
      cases hb : h.bReleased with
      | true =>
        have hst : w.step (.dispose i latency) =
            ⟨w.heap, w.dispatch, Function.update w.objs i none, w.nextObj⟩ := by
          simp [World.step, hi, FRefCountedStruct.destructor, hb]
        rw [hst]
        refine ⟨.idle, trivial, rfl, ?_, by intro k hk; cases hk⟩
        exact hw.update .idle trivial _ _ _ _ (by intro h hh; cases hh) hin (le_refl _)
      | false =>
        have hst : w.step (.dispose i latency) =
            ⟨(h.ReleaseReference w.heap).1,
              pollUntilReady latency { w.dispatch with tasks := w.dispatch.tasks + 1 },
              Function.update w.objs i none, w.nextObj⟩ := by
          simp [World.step, hi, FRefCountedStruct.destructor, hb, ExecuteOnGameThread]
        rw [hst]
        obtain ⟨_, _, hc⟩ := release_sound h w.heap hs
        rcases hc with ⟨hc, _⟩ | ⟨k, _, _, _, ⟨hen, hc⟩ | ⟨hen, hc⟩⟩
        · refine ⟨.idle, trivial, by rw [hc]; rfl, ?_, by intro k hk; cases hk⟩
          rw [hc]
          exact hw.update .idle trivial _ _ _ _ (by intro h hh; cases hh) hin (le_refl _)
        · refine ⟨.dec k, hen, hc, ?_, by intro k hk; cases hk⟩
          rw [hc]
          exact hw.update (.dec k) hen _ _ _ _ (by intro h hh; cases hh) hin (le_refl _)
        · refine ⟨.fin k, hen, hc, ?_, by intro k hk; cases hk⟩
          rw [hc]
          exact hw.update (.fin k) hen _ _ _ _ (by intro h hh; cases hh) hin (le_refl _)

theorem World.runFrom_append (w : World) (a b : List Op) :
    w.runFrom (a ++ b) = (w.runFrom a).runFrom b := by
  simp [World.runFrom, List.foldl_append]

theorem World.runFrom_cons (w : World) (op : Op) (ops : List Op) :
    w.runFrom (op :: ops) = (w.step op).runFrom ops := rfl

theorem World.run_snoc (ops : List Op) (op : Op) :
    World.run (ops ++ [op]) = (World.run ops).step op := by
  simp [World.run, World.runFrom, List.foldl_append]

theorem World.init_wf : World.init.WF := by
  refine ⟨⟨rfl, ?_, ?_, ?_, ?_⟩, ?_, ?_⟩
  · intro k; simp [World.init, Heap.empty]
  · intro k; simp [World.init, Heap.empty, Heap.hookCount]
  · intro k _; rfl
  · intro k _; rfl
  · intro i h hi; simp [World.init] at hi
  · intro i _; rfl

theorem World.WF.runFrom {w : World} (hw : w.WF) (ops : List Op) : (w.runFrom ops).WF := by
  induction ops generalizing w with
  | nil => exact hw
  | cons op ops ih =>
    obtain ⟨e, _, _, hw2, _⟩ := w.step_event hw op
    exact ih hw2

theorem World.run_wf (ops : List Op) : (World.run ops).WF :=
  World.init_wf.runFrom ops

/-- An event leaves a destroying block as it is. -/
theorem Heap.apply_destroying (m : Heap) (hm : m.Inv) (e : Event) (he : m.Enabled e) (k : Nat)
    (hd : m.bools k = true) :
    (m.apply e).bools k = true ∧ (m.apply e).ints k = m.ints k := by
  have hk : k < m.nextBool := by
    by_contra hx
    have := hm.freshBool k (by omega)
    rw [hd] at this
    cases this
  cases e with
  | idle => exact ⟨hd, rfl⟩
  | alloc =>
    have h1 : k ≠ m.nextBool := by omega
    have h2 : k ≠ m.nextInt := by have := hm.next_eq; omega
    simp [Heap.apply, FRefCountedStruct.Initialize, Heap.newInt, Heap.newBool,
      Function.update_noteq h1, Function.update_noteq h2, hd]
  | inc a =>
    have hne : k ≠ a := by
      rintro rfl
      rw [he.2] at hd
      cases hd
    simp [Heap.apply, Heap.fetchAdd, Function.update_noteq hne, hd]
  | dec a =>
    have hne : k ≠ a := by
      rintro rfl
      rw [he.2.1] at hd
      cases hd
    simp [Heap.apply, Heap.fetchSub, Function.update_noteq hne, hd]
  | fin a =>
    have hne : k ≠ a := by
      rintro rfl
      rw [he.2.1] at hd
      cases hd
    simp [Heap.apply, Heap.finalize, FRefCountedStruct.OnAllReferencesReleased, Heap.fetchSub,
      Heap.storeBool, Function.update_noteq hne, hd]

theorem World.runFrom_destroying (w : World) (hw : w.WF) (k : Nat)
    (hd : w.heap.bools k = true) (ops : List Op) :
    (w.runFrom ops).heap.bools k = true ∧ (w.runFrom ops).heap.ints k = w.heap.ints k := by
  induction ops generalizing w with
  | nil => exact ⟨hd, rfl⟩
  | cons op ops ih =>
    obtain ⟨e, he, heq, hw2, _⟩ := w.step_event hw op
    have h1 := Heap.apply_destroying w.heap hw.heap e he k hd
    rw [← heq] at h1
    have h2 := ih (w.step op) hw2 h1.1
    rw [World.runFrom_cons]
    exact ⟨h2.1, h2.2.trans h1.2⟩

/-- An event invokes the hook for block `k` exactly when it takes the counter of `k`
from 1 to 0, and it invokes at most one hook. -/
theorem Heap.apply_hook (m : Heap) (hm : m.Inv) (e : Event) (he : m.Enabled e) (k : Nat) :
    ((m.apply e).hookCount k = m.hookCount k ∨ (m.apply e).hookCount k = m.hookCount k + 1) ∧
    ((m.apply e).hookCount k = m.hookCount k + 1 ↔ m.ints k = 1 ∧ (m.apply e).ints k = 0) := by
  cases e with
  | idle =>
    refine ⟨Or.inl rfl, ?_⟩
    simp only [Heap.apply]
    constructor
    · intro h; omega
    · rintro ⟨h1, h2⟩; omega
  | alloc =>
    have hh : (m.apply .alloc).hookCount k = m.hookCount k := rfl
    refine ⟨Or.inl hh, ?_⟩
    rw [hh]
    constructor
    · intro h; omega
    · rintro ⟨h1, h2⟩
      exfalso
      by_cases hk : k = m.nextInt
      · have := hm.freshInt k (by omega)
        omega
      · simp [Heap.apply, FRefCountedStruct.Initialize, Heap.newInt, Heap.newBool,
          Function.update_noteq hk] at h2
        omega
  | inc a =>
    have hh : (m.apply (.inc a)).hookCount k = m.hookCount k := rfl
    refine ⟨Or.inl hh, ?_⟩
    rw [hh]
    constructor
    · intro h; omega
    · rintro ⟨h1, h2⟩
      exfalso
      by_cases hk : k = a
      · subst hk
        simp [Heap.apply, Heap.fetchAdd, h1, wrapInt32] at h2
      · simp [Heap.apply, Heap.fetchAdd, Function.update_noteq hk] at h2
        omega
  | dec a =>
    have hh : (m.apply (.dec a)).hookCount k = m.hookCount k := rfl
    refine ⟨Or.inl hh, ?_⟩
    rw [hh]
    constructor
    · intro h; omega
    · rintro ⟨h1, h2⟩
      exfalso
      by_cases hk : k = a
      · subst hk
        simp [Heap.apply, Heap.fetchSub] at h2
        exact he.2.2 h2
      · simp [Heap.apply, Heap.fetchSub, Function.update_noteq hk] at h2
        omega
  | fin a =>
    have hh : (m.apply (.fin a)).hookCount k = m.hookCount k + if k = a then 1 else 0 :=
      hookCount_finalize m a k
    rw [hh]
    by_cases hk : k = a
    · subst hk
      simp only [if_true, true_iff]
      refine ⟨Or.inr trivial, ?_, ?_⟩
      · have h1 := he.2.2
        have h2 := hm.range k
        unfold wrapInt32 at h1
        omega
      · simpa [Heap.apply, Heap.finalize, FRefCountedStruct.OnAllReferencesReleased,
          Heap.fetchSub, Heap.storeBool] using he.2.2
    · simp only [hk, if_false, Nat.add_zero]
      refine ⟨Or.inl trivial, ?_⟩
      constructor
      · intro h; omega
      · rintro ⟨h1, h2⟩
        exfalso
        simp [Heap.apply, Heap.finalize, FRefCountedStruct.OnAllReferencesReleased,
          Heap.fetchSub, Heap.storeBool, Function.update_noteq hk] at h2
        omega

theorem Heap.Counted.carried {m : Heap} {n : Nat} (hc : m.Counted n) (hm : m.Inv) (e : Event)
    (he : m.Enabled e) (n2 : Nat) (hn : n ≤ n2) (hb : n2 ≤ 2147483646)
    (hinc : ∀ k, e = .inc k → n + 1 ≤ n2) : (m.apply e).Counted n2 := by
  intro k hk
  cases e with
  | idle =>
    simp only [Heap.apply] at hk ⊢
    obtain ⟨h1, h2⟩ := hc k hk
    refine ⟨fun h => ?_, h2⟩
    have := h1 h
    exact ⟨this.1, by have := this.2; omega⟩
  | alloc =>
    simp only [Heap.apply, FRefCountedStruct.Initialize, Heap.newInt, Heap.newBool] at hk ⊢
    by_cases hkn : k = m.nextInt
    · have hkb : k = m.nextBool := by rw [← hm.next_eq]; exact hkn
      constructor
      · intro _
        rw [hkn, Function.update_same]
        omega
      · intro h
        rw [hkb, Function.update_same] at h
        cases h
    · have hkb : k ≠ m.nextBool := by rw [← hm.next_eq]; exact hkn
      rw [Function.update_noteq hkn, Function.update_noteq hkb]
      obtain ⟨h1, h2⟩ := hc k (by omega)
      refine ⟨fun h => ?_, h2⟩
      have := h1 h
      exact ⟨this.1, by have := this.2; omega⟩
  | inc a =>
    have hn1 := hinc a rfl
    simp only [Heap.apply, Heap.fetchAdd] at hk ⊢
    by_cases hka : k = a
    · subst hka
      rw [Function.update_same]
      have := (hc k hk).1 he.2
      refine ⟨fun _ => ?_, fun h => ?_⟩
      · unfold wrapInt32
        omega
      · rw [he.2] at h
        cases h
    · rw [Function.update_noteq hka]
      obtain ⟨h1, h2⟩ := hc k hk
      refine ⟨fun h => ?_, h2⟩
      have := h1 h
      exact ⟨this.1, by have := this.2; omega⟩
  | dec a =>
    simp only [Heap.apply, Heap.fetchSub] at hk ⊢
    by_cases hka : k = a
    · subst hka
      rw [Function.update_same]
      have := (hc k hk).1 he.2.1
      have hz := he.2.2
      refine ⟨fun _ => ?_, fun h => ?_⟩
      · unfold wrapInt32 at hz ⊢
        omega
      · rw [he.2.1] at h
        cases h
    · rw [Function.update_noteq hka]
      obtain ⟨h1, h2⟩ := hc k hk
      refine ⟨fun h => ?_, h2⟩
      have := h1 h
      exact ⟨this.1, by have := this.2; omega⟩
  | fin a =>
    simp only [Heap.apply, Heap.finalize, FRefCountedStruct.OnAllReferencesReleased,
      Heap.fetchSub, Heap.storeBool] at hk ⊢
    by_cases hka : k = a
    · subst hka
      rw [Function.update_same, Function.update_same]
      constructor
      · intro h; cases h
      · intro _; exact he.2.2
    · rw [Function.update_noteq hka, Function.update_noteq hka]
      obtain ⟨h1, h2⟩ := hc k hk
      refine ⟨fun h => ?_, h2⟩
      have := h1 h
      exact ⟨this.1, by have := this.2; omega⟩

theorem copyOps_cons (op : Op) (ops : List Op) :
    copyOps (op :: ops) = copyOps ops + if op.isCopy = true then 1 else 0 := by
  unfold copyOps
  rw [List.countP_cons]

theorem World.runFrom_counted (w : World) (hw : w.WF) (n : Nat) (hc : w.heap.Counted n)
    (ops : List Op) (hb : n + copyOps ops ≤ 2147483646) :
    (w.runFrom ops).heap.Counted (n + copyOps ops) := by
  induction ops generalizing w n with
  | nil => simpa [World.runFrom, copyOps] using hc
  | cons op ops ih =>
    rw [copyOps_cons] at hb ⊢
    obtain ⟨e, he, heq, hw2, hcopy⟩ := w.step_event hw op
    have hstep : (w.step op).heap.Counted (n + if op.isCopy = true then 1 else 0) := by
      rw [heq]
      refine hc.carried hw.heap e he _ (by omega) (by omega) ?_
      intro k hk
      rw [hcopy k hk]
      simp
    have := ih (w.step op) hw2 _ hstep (by omega)
    rw [World.runFrom_cons]
    have e2 : n + (copyOps ops + if op.isCopy = true then 1 else 0)
        = (n + if op.isCopy = true then 1 else 0) + copyOps ops := by omega
    rw [e2]
    exact this

theorem World.init_counted : World.init.heap.Counted 0 := by
  intro k hk
  simp [World.init, Heap.empty] at hk

theorem wrapInt32_add (x y : Int) : wrapInt32 (wrapInt32 x + y) = wrapInt32 (x + y) := by
  unfold wrapInt32
  omega

theorem wrapInt32_sub (x y : Int) : wrapInt32 (wrapInt32 x - y) = wrapInt32 (x - y) := by
  unfold wrapInt32
  omega

theorem wrapInt32_eq_zero (x : Int) : wrapInt32 x = 0 ↔ x % 4294967296 = 0 := by
  unfold wrapInt32
  omega

theorem getRefCount_some (k : Nat) (fl : Option Nat) (b : Bool) (m : Heap) :
    (⟨some k, fl, b⟩ : FRefCountedStruct).GetRefCount m = m.ints k := rfl

/-- The state after `y = x` between two distinct live objects. -/
theorem World.step_copyAssign (w : World) (dst src : Nat) (d o : FRefCountedStruct)
    (hd : w.objs dst = some d) (ho : w.objs src = some o) (hne : dst ≠ src) :
    w.step (.copyAssign dst src) =
      ⟨(d.CopyFrom o).IncrementRefCounter w.heap, w.dispatch,
        Function.update w.objs dst (some (d.CopyFrom o)), w.nextObj⟩ := by
  simp [World.step, hd, ho, FRefCountedStruct.assign, FRefCountedStruct.copyBody, hne]

/-- The state after `x.Release()` for a live object `x`. -/
theorem World.step_release (w : World) (i : Nat) (h : FRefCountedStruct)
    (hi : w.objs i = some h) :
    w.step (.release i) =
      ⟨(h.ReleaseReference w.heap).1, w.dispatch,
        Function.update w.objs i (some (h.ReleaseReference w.heap).2), w.nextObj⟩ := by
  simp [World.step, hi, FRefCountedStruct.Release]

/-- Two handles, the second assigned from the first again and again: every assignment
increments the counter of the first block. -/
theorem World.assign_loop (n : Nat) :
    (World.run (.construct :: .construct :: List.replicate (n + 1) (.copyAssign 1 0))).objs 0
      = some ⟨some 0, some 0, false⟩ ∧
    (World.run (.construct :: .construct :: List.replicate (n + 1) (.copyAssign 1 0))).objs 1
      = some ⟨some 0, some 0, false⟩ ∧
    (World.run (.construct :: .construct ::
      List.replicate (n + 1) (.copyAssign 1 0))).heap.ints 0 = wrapInt32 ((n : Int) + 2) ∧
    (World.run (.construct :: .construct ::
      List.replicate (n + 1) (.copyAssign 1 0))).heap.bools 0 = false ∧
    (World.run (.construct :: .construct ::
      List.replicate (n + 1) (.copyAssign 1 0))).heap.nextInt = 2 := by
  induction n with
  | zero => exact ⟨by decide, by decide, by decide, by decide, by decide⟩
  | succ n ih =>
    have hl : (Op.construct :: Op.construct :: List.replicate (n + 1 + 1) (Op.copyAssign 1 0))
        = (Op.construct :: Op.construct :: List.replicate (n + 1) (Op.copyAssign 1 0))
          ++ [Op.copyAssign 1 0] := by
      rw [List.replicate_succ' (n + 1)]
      rfl
    rw [hl, World.run_snoc]
    obtain ⟨h0, h1, hi, hb, hn⟩ := ih
    rw [World.step_copyAssign _ 1 0 _ _ h1 h0 (by decide)]
    refine ⟨?_, ?_, ?_, ?_, ?_⟩
    · simpa using h0
    · simp [FRefCountedStruct.CopyFrom]
    · simp [FRefCountedStruct.CopyFrom, FRefCountedStruct.IncrementRefCounter,
        FRefCountedStruct.IsDestroying, hb, Heap.fetchAdd, hi]
      rw [wrapInt32_add]
      congr 1
    · simp [FRefCountedStruct.CopyFrom, FRefCountedStruct.IncrementRefCounter,
        FRefCountedStruct.IsDestroying, hb, Heap.fetchAdd]
    · simp [FRefCountedStruct.CopyFrom, FRefCountedStruct.IncrementRefCounter,
        FRefCountedStruct.IsDestroying, hb, Heap.fetchAdd, hn]

theorem World.shared_construct : (World.init.step .construct).Shared 1 := by
  refine ⟨rfl, ?_, by decide, by decide, by decide⟩
  intro i hi
  have : i = 0 := by omega
  subst this
  decide

theorem World.Shared.copies {w : World} {n : Nat} (hs : w.Shared n) (srcs : List Nat)
    (hv : validSources n srcs = true) :
    (w.runFrom (srcs.map .copyConstruct)).Shared (n + srcs.length) := by
  induction srcs generalizing w n with
  | nil => simpa [World.runFrom] using hs
  | cons s rest ih =>
    simp only [validSources, Bool.and_eq_true, decide_eq_true_eq] at hv
    obtain ⟨hn, ho, hi, hb, hh⟩ := hs
    have hstep : (w.step (.copyConstruct s)).Shared (n + 1) := by
      rw [World.step_copyConstruct w s _ (ho s hv.1) (by omega)]
      have hinc : (uninit.CopyFrom ⟨some 0, some 0, false⟩).IncrementRefCounter w.heap
          = w.heap.fetchAdd 0 1 := by
        simp [FRefCountedStruct.CopyFrom, FRefCountedStruct.IncrementRefCounter,
          FRefCountedStruct.IsDestroying, hb, FRefCountedStruct.uninit]
      rw [hinc]
      refine ⟨by simp [hn], ?_, ?_, ?_, ?_⟩
      · intro i hi2
        by_cases hin : i = w.nextObj
        · subst hin
          simp [FRefCountedStruct.CopyFrom, FRefCountedStruct.uninit]
        · simp only [Function.update_noteq hin]
          exact ho i (by omega)
      · simp only [Heap.fetchAdd, Function.update_same, hi]
        rw [wrapInt32_add, Nat.cast_add, Nat.cast_one]
      · simpa [Heap.fetchAdd] using hb
      · simpa [Heap.fetchAdd] using hh
    have := ih hstep hv.2
    simp only [List.map_cons, List.length_cons, World.runFrom_cons]
    have e : n + (rest.length + 1) = n + 1 + rest.length := by omega
    rw [e]
    exact this

theorem World.Shared.releasing {w : World} {n : Nat} (hs : w.Shared n) :
    w.Releasing n [] := by
  obtain ⟨_, ho, hi, hb, hh⟩ := hs
  refine ⟨?_, ?_, ?_⟩
  · intro i hi2
    exact ⟨false, ho i hi2, by simp⟩
  · intro _
    refine ⟨hh, by simpa using hi, ?_⟩
    intro j h1 h2
    simp at h2
    omega
  · intro h
    rw [hb] at h
    cases h

theorem World.Releasing.release {w : World} {n : Nat} {rel : List Nat}
    (hr : w.Releasing n rel) (i : Nat) (hi : i < n) (hnew : i ∉ rel) :
    (w.step (.release i)).Releasing n (rel ++ [i]) := by
  obtain ⟨ho, hA, hB⟩ := hr
  obtain ⟨b, hob, hbr⟩ := ho i hi
  rw [World.step_release w i _ hob]
  cases hd : w.heap.bools 0 with
  | true =>
    obtain ⟨h1, h2, j, hj1, hj2, hj3⟩ := hB hd
    have hg : (⟨some 0, some 0, b⟩ : FRefCountedStruct).ReleaseReference w.heap
        = (w.heap, ⟨some 0, some 0, b⟩) :=
      releaseReference_of_guard _ _ (Or.inr (Or.inl (by
        simpa [FRefCountedStruct.IsDestroying] using hd)))
    rw [hg]
    refine ⟨?_, ?_, ?_⟩
    · intro i2 hi2
      by_cases hii : i2 = i
      · subst hii
        exact ⟨b, by simp, by intro h; simp only at h; rw [hd] at h; cases h⟩
      · obtain ⟨b2, hob2, _⟩ := ho i2 hi2
        exact ⟨b2, by simpa [Function.update_noteq hii] using hob2,
          by intro h; simp only at h; rw [hd] at h; cases h⟩
    · intro h
      simp only at h
      rw [hd] at h
      cases h
    · intro _
      refine ⟨h1, h2, j, hj1, ?_, hj3⟩
      simp only [List.length_append, List.length_singleton]
      omega
  | false =>
    obtain ⟨h1, h2, h3⟩ := hA hd
    have hbf : b = false := by
      cases b with
      | false => rfl
      | true => exact absurd ((hbr hd).1 rfl) hnew
    subst hbf
    have hlive : (⟨some 0, some 0, false⟩ : FRefCountedStruct).ReleaseReference w.heap =
        if wrapInt32 (w.heap.ints 0 - 1) = 0 then
          (OnAllReferencesReleased ⟨some 0, some 0, true⟩
            ((w.heap.fetchSub 0 1).storeBool 0 true), ⟨some 0, some 0, true⟩)
        else (w.heap.fetchSub 0 1, ⟨some 0, some 0, true⟩) :=
      releaseReference_of_live ⟨some 0, some 0, false⟩ w.heap 0 0 rfl rfl hd rfl
    have hcount : wrapInt32 (w.heap.ints 0 - 1)
        = wrapInt32 ((n : Int) - ((rel ++ [i]).length : Int)) := by
      rw [h2, wrapInt32_sub]
      congr 1
      simp only [List.length_append, List.length_singleton]
      push_cast
      ring
    by_cases hz : wrapInt32 (w.heap.ints 0 - 1) = 0
    · rw [if_pos hz] at hlive
      rw [hlive]
      have hbool : (OnAllReferencesReleased ⟨some 0, some 0, true⟩
          ((w.heap.fetchSub 0 1).storeBool 0 true)).bools 0 = true := by
        simp [FRefCountedStruct.OnAllReferencesReleased, Heap.storeBool]
      refine ⟨?_, ?_, ?_⟩
      · intro i2 hi2
        by_cases hii : i2 = i
        · subst hii
          exact ⟨true, by simp, by intro h; simp only at h; rw [hbool] at h; cases h⟩
        · obtain ⟨b2, hob2, _⟩ := ho i2 hi2
          exact ⟨b2, by simpa [Function.update_noteq hii] using hob2,
            by intro h; simp only at h; rw [hbool] at h; cases h⟩
      · intro h
        simp only at h
        rw [hbool] at h
        cases h
      · intro _
        refine ⟨?_, ?_, rel.length + 1, by omega, by simp, ?_⟩
        · simp [FRefCountedStruct.OnAllReferencesReleased, Heap.storeBool, Heap.fetchSub, h1]
        · simpa [FRefCountedStruct.OnAllReferencesReleased, Heap.storeBool, Heap.fetchSub]
            using hz
        · rw [hcount] at hz
          simpa using hz
    · rw [if_neg hz] at hlive
      rw [hlive]
      have hbool : (w.heap.fetchSub 0 1).bools 0 = false := by
        simpa [Heap.fetchSub] using hd
      refine ⟨?_, ?_, ?_⟩
      · intro i2 hi2
        by_cases hii : i2 = i
        · subst hii
          exact ⟨true, by simp, by intro _; simp⟩
        · obtain ⟨b2, hob2, hb2⟩ := ho i2 hi2
          refine ⟨b2, by simpa [Function.update_noteq hii] using hob2, ?_⟩
          intro _
          rw [hb2 hd]
          simp [hii]
      · intro _
        refine ⟨by simpa [Heap.fetchSub] using h1, ?_, ?_⟩
        · simp only [Heap.fetchSub, Function.update_same]
          exact hcount
        · intro j hj1 hj2
          simp only [List.length_append, List.length_singleton] at hj2
          by_cases hjl : j ≤ rel.length
          · exact h3 j hj1 hjl
          · have hj : j = rel.length + 1 := by omega
            rw [hcount] at hz
            subst hj
            simpa using hz
      · intro h
        simp only at h
        rw [hbool] at h
        cases h

theorem World.Releasing.run {w : World} {n : Nat} (hs : w.Shared n) (rel : List Nat)
    (hnd : rel.Nodup) (hlt : ∀ i ∈ rel, i < n) :
    (w.runFrom (rel.map .release)).Releasing n rel := by
  induction rel using List.reverseRecOn with
  | nil => simpa [World.runFrom] using hs.releasing
  | append_singleton rel i ih =>
    have hnd2 : rel.Nodup ∧ i ∉ rel := by
      have := List.nodup_append.1 hnd
      refine ⟨this.1, ?_⟩
      intro hmem
      exact this.2.2 hmem (List.mem_singleton_self i)
    have hprev := ih hnd2.1 (fun j hj => hlt j (List.mem_append_left _ hj))
    have := hprev.release i (hlt i (by simp)) hnd2.2
    simpa [World.runFrom_append, World.runFrom] using this

theorem validSources_replicate (n k : Nat) (hn : 1 ≤ n) :
    validSources n (List.replicate k 0) = true := by
  induction k generalizing n with
  | zero => rfl
  | succ k ih =>
    rw [List.replicate_succ]
    simp only [validSources, Bool.and_eq_true, decide_eq_true_eq]
    exact ⟨by omega, ih (n + 1) (by omega)⟩

/-- The state of `shareProgram` once the handles in `rel` are released. -/
theorem World.shareProgram_releasing (srcs rel : List Nat) (hs : validSources 1 srcs = true)
    (hnd : rel.Nodup) (hlt : ∀ i ∈ rel, i < srcs.length + 1) :
    (World.run (shareProgram srcs rel)).Releasing (srcs.length + 1) rel := by
  have h1 := World.shared_construct.copies srcs hs
  rw [Nat.add_comm 1 srcs.length] at h1
  have h2 := World.Releasing.run h1 rel hnd hlt
  have e : World.run (shareProgram srcs rel)
      = ((World.init.step .construct).runFrom (srcs.map .copyConstruct)).runFrom
          (rel.map .release) := by
    simp [World.run, shareProgram, World.runFrom_cons, World.runFrom_append]
  rw [e]
  exact h2

/-- Facts about a release order that is a permutation of all handles. -/
theorem order_facts (n : Nat) (order : List Nat) (ho : order.Perm (List.range n)) :
    order.Nodup ∧ (∀ i ∈ order, i < n) ∧ order.length = n ∧
    order.dropLast.Nodup ∧ (∀ i ∈ order.dropLast, i < n) ∧ order.dropLast.length = n - 1 := by
  have hnd : order.Nodup := (List.Perm.nodup_iff ho).2 (List.nodup_range n)
  have hlt : ∀ i ∈ order, i < n := fun i hi => List.mem_range.1 ((List.Perm.mem_iff ho).1 hi)
  have hlen : order.length = n := by rw [List.Perm.length_eq ho, List.length_range]
  refine ⟨hnd, hlt, hlen, ?_, ?_, ?_⟩
  · exact List.Nodup.sublist (List.dropLast_sublist order) hnd
  · intro i hi
    exact hlt i (List.mem_of_mem_dropLast hi)
  · rw [List.length_dropLast, hlen]

/-- After all releases of `shareProgram` the block is finalized. -/
theorem World.shareProgram_final (srcs order : List Nat) (hs : validSources 1 srcs = true)
    (ho : order.Perm (List.range (srcs.length + 1))) :
    (∀ i, i < srcs.length + 1 → ∃ b, (World.run (shareProgram srcs order)).objs i
        = some ⟨some 0, some 0, b⟩) ∧
    (World.run (shareProgram srcs order)).heap.ints 0 = 0 ∧
    (World.run (shareProgram srcs order)).heap.hooks.length = 1 := by
  obtain ⟨hnd, hlt, hlen, _, _, _⟩ := order_facts _ order ho
  obtain ⟨hobj, hA, hB⟩ := World.shareProgram_releasing srcs order hs hnd hlt
  cases hd : (World.run (shareProgram srcs order)).heap.bools 0 with
  | false =>
    exfalso
    obtain ⟨_, _, h3⟩ := hA hd
    refine h3 (srcs.length + 1) (by omega) (by omega) ?_
    rw [sub_self]
    decide
  | true =>
    obtain ⟨h1, h2, _⟩ := hB hd
    refine ⟨?_, h2, h1⟩
    intro i hi
    obtain ⟨b, hb, _⟩ := hobj i hi
    exact ⟨b, hb⟩

/-- Before the last release of `shareProgram`: no hook call when there are at most 2^32
handles, and already one hook call when there are more. -/
theorem World.shareProgram_before_last (srcs order : List Nat)
    (hs : validSources 1 srcs = true) (ho : order.Perm (List.range (srcs.length + 1))) :
    (srcs.length < 4294967296 →
      (World.run (shareProgram srcs order.dropLast)).heap.hooks.length = 0) ∧
    (4294967296 ≤ srcs.length →
      (World.run (shareProgram srcs order.dropLast)).heap.hooks.length = 1) := by
  obtain ⟨_, _, _, hnd, hlt, hlen⟩ := order_facts _ order ho
  obtain ⟨_, hA, hB⟩ := World.shareProgram_releasing srcs order.dropLast hs hnd hlt
  rw [hlen] at hA hB
  constructor
  · intro hsmall
    cases hd : (World.run (shareProgram srcs order.dropLast)).heap.bools 0 with
    | false =>
      rw [(hA hd).1]
      rfl
    | true =>
      exfalso
      obtain ⟨_, _, j, hj1, hj2, hj3⟩ := hB hd
      rw [wrapInt32_eq_zero] at hj3
      push_cast at hj3
      omega
  · intro hbig
    cases hd : (World.run (shareProgram srcs order.dropLast)).heap.bools 0 with
    | false =>
      exfalso
      obtain ⟨_, _, h3⟩ := hA hd
      refine h3 (srcs.length + 1 - 4294967296) (by omega) (by omega) ?_
      rw [wrapInt32_eq_zero]
      push_cast [Nat.cast_sub (show 4294967296 ≤ srcs.length + 1 by omega)]
      omega
    | true => exact (hB hd).1

theorem Heap.Zeroed.stays_zeroed {m : Heap} (hz : m.Zeroed) (hm : m.Inv) (e : Event)
    (he : m.Enabled e) : (m.apply e).Zeroed := by
  intro k hk
  cases hb : m.bools k with
  | true =>
    have := Heap.apply_destroying m hm e he k hb
    rw [this.2]
    exact hz k hb
  | false =>
    cases e with
    | idle => simp only [Heap.apply] at hk; rw [hb] at hk; cases hk
    | alloc =>
      exfalso
      simp only [Heap.apply, FRefCountedStruct.Initialize, Heap.newInt, Heap.newBool] at hk
      by_cases hkn : k = m.nextBool
      · rw [hkn, Function.update_same] at hk; cases hk
      · rw [Function.update_noteq hkn, hb] at hk; cases hk
    | inc a => simp only [Heap.apply, Heap.fetchAdd] at hk; rw [hb] at hk; cases hk
    | dec a => simp only [Heap.apply, Heap.fetchSub] at hk; rw [hb] at hk; cases hk
    | fin a =>
      simp only [Heap.apply, Heap.finalize, FRefCountedStruct.OnAllReferencesReleased,
        Heap.fetchSub, Heap.storeBool] at hk ⊢
      by_cases hka : k = a
      · subst hka
        rw [Function.update_same]
        exact he.2.2
      · rw [Function.update_noteq hka, hb] at hk; cases hk

theorem World.run_zeroed (ops : List Op) : (World.run ops).heap.Zeroed := by
  have key : ∀ (l : List Op) (w : World), w.WF → w.heap.Zeroed → (w.runFrom l).heap.Zeroed := by
    intro l
    induction l with
    | nil => intro w _ hz; exact hz
    | cons op l ih =>
      intro w hw hz
      obtain ⟨e, he, heq, hw2, _⟩ := w.step_event hw op
      rw [World.runFrom_cons]
      refine ih _ hw2 ?_
      rw [heq]
      exact hz.stays_zeroed hw.heap e he
  refine key ops World.init World.init_wf ?_
  intro k hk
  simp [World.init, Heap.empty] at hk

theorem Heap.Modular.stays_modular {m : Heap} {n : Nat} (hc : m.Modular n) (hm : m.Inv) (e : Event)
    (he : m.Enabled e) (n2 : Nat) (hn : n ≤ n2) (hb : n2 ≤ 4294967294)
    (hinc : ∀ k, e = .inc k → n + 1 ≤ n2) : (m.apply e).Modular n2 := by
  intro k hk hbk
  cases e with
  | idle =>
    simp only [Heap.apply] at hk hbk ⊢
    obtain ⟨t, h1, h2, h3⟩ := hc k hk hbk
    exact ⟨t, h1, by omega, h3⟩
  | alloc =>
    simp only [Heap.apply, FRefCountedStruct.Initialize, Heap.newInt, Heap.newBool] at hk hbk ⊢
    by_cases hkn : k = m.nextInt
    · rw [hkn, Function.update_same]
      exact ⟨1, le_refl _, by omega, by decide⟩
    · have hkb : k ≠ m.nextBool := by rw [← hm.next_eq]; exact hkn
      rw [Function.update_noteq hkb] at hbk
      rw [Function.update_noteq hkn]
      obtain ⟨t, h1, h2, h3⟩ := hc k (by omega) hbk
      exact ⟨t, h1, by omega, h3⟩
  | inc a =>
    have hn1 := hinc a rfl
    simp only [Heap.apply, Heap.fetchAdd] at hk hbk ⊢
    by_cases hka : k = a
    · subst hka
      rw [Function.update_same]
      obtain ⟨t, h1, h2, h3⟩ := hc k hk hbk
      exact ⟨t + 1, by omega, by omega, by rw [h3, wrapInt32_add]⟩
    · rw [Function.update_noteq hka]
      obtain ⟨t, h1, h2, h3⟩ := hc k hk hbk
      exact ⟨t, h1, by omega, h3⟩
  | dec a =>
    simp only [Heap.apply, Heap.fetchSub] at hk hbk ⊢
    by_cases hka : k = a
    · subst hka
      rw [Function.update_same]
      obtain ⟨t, h1, h2, h3⟩ := hc k hk hbk
      have hz := he.2.2
      rw [h3, wrapInt32_sub] at hz
      refine ⟨t - 1, ?_, by omega, by rw [h3, wrapInt32_sub]⟩
      by_contra hlt
      have : t - 1 = 0 := by omega
      rw [this] at hz
      exact hz (by decide)
    · rw [Function.update_noteq hka]
      obtain ⟨t, h1, h2, h3⟩ := hc k hk hbk
      exact ⟨t, h1, by omega, h3⟩
  | fin a =>
    simp only [Heap.apply, Heap.finalize, FRefCountedStruct.OnAllReferencesReleased,
      Heap.fetchSub, Heap.storeBool] at hk hbk ⊢
    by_cases hka : k = a
    · subst hka
      rw [Function.update_same] at hbk
      cases hbk
    · rw [Function.update_noteq hka] at hbk
      rw [Function.update_noteq hka]
      obtain ⟨t, h1, h2, h3⟩ := hc k hk hbk
      exact ⟨t, h1, by omega, h3⟩

theorem World.runFrom_modular (w : World) (hw : w.WF) (n : Nat) (hc : w.heap.Modular n)
    (ops : List Op) (hb : n + copyOps ops ≤ 4294967294) :
    (w.runFrom ops).heap.Modular (n + copyOps ops) := by
  induction ops generalizing w n with
  | nil => simpa [World.runFrom, copyOps] using hc
  | cons op ops ih =>
    rw [copyOps_cons] at hb ⊢
    obtain ⟨e, he, heq, hw2, hcopy⟩ := w.step_event hw op
    have hstep : (w.step op).heap.Modular (n + if op.isCopy = true then 1 else 0) := by
      rw [heq]
      refine hc.stays_modular hw.heap e he _ (by omega) (by omega) ?_
      intro k hk
      rw [hcopy k hk]
      simp
    have := ih (w.step op) hw2 _ hstep (by omega)
    rw [World.runFrom_cons]
    have e2 : n + (copyOps ops + if op.isCopy = true then 1 else 0)
        = (n + if op.isCopy = true then 1 else 0) + copyOps ops := by omega
    rw [e2]
    exact this

theorem isDestroying_some (k : Nat) (rc : Option Nat) (b : Bool) (m : Heap) :
    (⟨rc, some k, b⟩ : FRefCountedStruct).IsDestroying m = m.bools k := rfl

theorem World.init_modular : World.init.heap.Modular 0 := by
  intro k hk
  simp [World.init, Heap.empty] at hk

theorem pollUntilReady_tasks (n : Nat) (d : Dispatch) :
    (pollUntilReady n d).tasks = d.tasks ∧ (pollUntilReady n d).waits = d.waits + n := by
  induction n generalizing d with
  | zero => exact ⟨rfl, rfl⟩
  | succ n ih =>
    obtain ⟨h1, h2⟩ := ih { d with waits := d.waits + 1 }
    simp only [pollUntilReady]
    exact ⟨h1, by rw [h2]; simp only; omega⟩

theorem copyBody_released (self other : FRefCountedStruct) (m : Heap) (a b : Nat) :
    (self.copyBody m a b other).2.bReleased = self.bReleased := by
  unfold FRefCountedStruct.copyBody
  split <;> rfl

theorem releaseReference_released (h : FRefCountedStruct) (m : Heap)
    (hr : h.bReleased = true) : (h.ReleaseReference m).2.bReleased = true := by
  rw [releaseReference_of_guard h m (Or.inr (Or.inr hr))]
  exact hr

/-- One operation keeps a live object live unless it disposes it, never flips a set
released flag back, and never makes an object appear below `nextObj`. -/
theorem World.step_released (w : World) (op : Op) (i : Nat) (hi : i < w.nextObj)
    (h2 : FRefCountedStruct) (h : (w.step op).objs i = some h2) :
    ∃ h1, w.objs i = some h1 ∧ (h1.bReleased = true → h2.bReleased = true) := by
  cases op with
  | construct =>
    have hne : i ≠ w.nextObj := by omega
    simp only [World.step, Function.update_noteq hne] at h
    exact ⟨h2, h, fun x => x⟩
  | copyConstruct src =>
    have hne : i ≠ w.nextObj := by omega
    by_cases hself : src = w.nextObj
    · subst hself
      rw [World.step_selfCopy w] at h
      simp only [Function.update_noteq hne] at h
      exact ⟨h2, h, fun x => x⟩
    · cases ho : w.objs src with
      | none =>
        rw [World.step_copyConstruct_none w src ho (fun e => hself e.symm)] at h
        exact ⟨h2, h, fun x => x⟩
      | some o =>
        rw [World.step_copyConstruct w src o ho (fun e => hself e.symm)] at h
        simp only [Function.update_noteq hne] at h
        exact ⟨h2, h, fun x => x⟩
  | copyAssign dst src =>
    cases hd : w.objs dst with
    | none =>
      simp only [World.step, hd] at h
      exact ⟨h2, h, fun x => x⟩
    | some d =>
      cases ho : w.objs src with
      | none =>
        simp only [World.step, hd, ho] at h
        exact ⟨h2, h, fun x => x⟩
      | some o =>
        simp only [World.step, hd, ho] at h
        by_cases hid : i = dst
        · subst hid
          rw [Function.update_same] at h
          cases h
          refine ⟨d, hd, ?_⟩
          intro hr
          unfold FRefCountedStruct.assign
          rw [copyBody_released]
          exact hr
        · rw [Function.update_noteq hid] at h
          exact ⟨h2, h, fun x => x⟩
  | release j =>
    cases hj : w.objs j with
    | none =>
      simp only [World.step, hj] at h
      exact ⟨h2, h, fun x => x⟩
    | some r =>
      simp only [World.step, hj] at h
      by_cases hij : i = j
      · subst hij
        rw [Function.update_same] at h
        cases h
        exact ⟨r, hj, fun hr => releaseReference_released r _ hr⟩
      · rw [Function.update_noteq hij] at h
        exact ⟨h2, h, fun x => x⟩
  | dispose j latency =>
    cases hj : w.objs j with
    | none =>
      simp only [World.step, hj] at h
      exact ⟨h2, h, fun x => x⟩
    | some r =>
      simp only [World.step, hj] at h
      by_cases hij : i = j
      · subst hij
        rw [Function.update_same] at h
        cases h
      · rw [Function.update_noteq hij] at h
        exact ⟨h2, h, fun x => x⟩

theorem World.nextObj_le_step (w : World) (op : Op) : w.nextObj ≤ (w.step op).nextObj := by
  cases op with
  | construct => simp [World.step]
  | copyConstruct src =>
    by_cases hself : src = w.nextObj
    · simp [World.step, hself]
    · cases ho : w.objs src
      · simp [World.step, ho, hself]
      · simp [World.step, ho, hself]
  | copyAssign dst src =>
    cases hd : w.objs dst <;> cases ho : w.objs src <;> simp [World.step, hd, ho]
  | release j => cases hj : w.objs j <;> simp [World.step, hj]
  | dispose j latency => cases hj : w.objs j <;> simp [World.step, hj]

theorem World.runFrom_released (w : World) (ops : List Op) (i : Nat) (hi : i < w.nextObj)
    (h2 : FRefCountedStruct) (h : (w.runFrom ops).objs i = some h2) :
    ∃ h1, w.objs i = some h1 ∧ (h1.bReleased = true → h2.bReleased = true) := by
  induction ops generalizing w with
  | nil => exact ⟨h2, h, fun x => x⟩
  | cons op ops ih =>
    rw [World.runFrom_cons] at h
    obtain ⟨hm, hm1, hm2⟩ := ih (w.step op)
      (Nat.lt_of_lt_of_le hi (World.nextObj_le_step w op)) h
    obtain ⟨h1, e1, e2⟩ := World.step_released w op i hi hm hm1
    exact ⟨h1, e1, fun hr => hm2 (e2 hr)⟩

/-- An event leaves the hook trace alone or appends one call that records count 0, the
destroying flag set and the released flag set. -/
theorem Heap.apply_hooks (m : Heap) (e : Event) (he : m.Enabled e) :
    (m.apply e).hooks = m.hooks ∨
    ∃ k, (m.apply e).hooks = m.hooks ++ [⟨some k, 0, true, true⟩] := by
  cases e with
  | idle => exact Or.inl rfl
  | alloc => exact Or.inl rfl
  | inc a => exact Or.inl rfl
  | dec a => exact Or.inl rfl
  | fin a =>
    right
    refine ⟨a, ?_⟩
    have hz := he.2.2
    simp [Heap.apply, Heap.finalize, FRefCountedStruct.OnAllReferencesReleased,
      FRefCountedStruct.GetRefCount, FRefCountedStruct.IsDestroying,
      FRefCountedStruct.IsReleased, Heap.fetchSub, Heap.storeBool, hz]

theorem World.run_hooks (ops : List Op) (c : HookCall) (hc : c ∈ (World.run ops).heap.hooks) :
    c.refCount = 0 ∧ c.destroying = true ∧ c.released = true := by
  have key : ∀ (l : List Op) (w : World), w.WF →
      (∀ c ∈ w.heap.hooks, c.refCount = 0 ∧ c.destroying = true ∧ c.released = true) →
      ∀ c ∈ (w.runFrom l).heap.hooks,
        c.refCount = 0 ∧ c.destroying = true ∧ c.released = true := by
    intro l
    induction l with
    | nil => intro w _ hz; exact hz
    | cons op l ih =>
      intro w hw hz
      obtain ⟨e, he, heq, hw2, _⟩ := w.step_event hw op
      rw [World.runFrom_cons]
      refine ih _ hw2 ?_
      rw [heq]
      rcases Heap.apply_hooks w.heap e he with h1 | ⟨k, h1⟩
      · rw [h1]; exact hz
      · rw [h1]
        intro c hc
        rcases List.mem_append.1 hc with hc | hc
        · exact hz c hc
        · rw [List.mem_singleton] at hc
          subst hc
          exact ⟨rfl, rfl, rfl⟩
  exact key ops World.init World.init_wf (by intro c hc; simp [World.init, Heap.empty] at hc)
    c hc

/-- A thread that is not interrupted computes `ReleaseReference()`: the atomic steps
compose to the sequential method. -/
theorem Thread.steps_eq_releaseReference (self : FRefCountedStruct) (m : Heap) :
    (Thread.steps 6 (Thread.start self) m).1 = (self.ReleaseReference m).1 ∧
    (Thread.steps 6 (Thread.start self) m).2 = ⟨(self.ReleaseReference m).2, .done⟩ := by
  by_cases hg : self.IsValid = false ∨ self.IsDestroying m = true ∨ self.IsReleased = true
  · rw [releaseReference_of_guard self m hg]
    have hg2 : (!self.IsValid || self.IsDestroying m || self.IsReleased) = true := by
      rcases hg with h | h | h <;> simp [h]
    simp [Thread.steps, Thread.step, Thread.start, hg2]
  · have hv : self.IsValid = true := by
      cases h : self.IsValid <;> simp_all
    have hd : self.IsDestroying m = false := by
      cases h : self.IsDestroying m <;> simp_all
    have hr : self.bReleased = false := by
      cases h : self.bReleased <;> simp_all [FRefCountedStruct.IsReleased]
    obtain ⟨rc, fl, hrc, hfl, hb⟩ := live_cases self m hv hd
    rw [releaseReference_of_live self m rc fl hrc hfl hb hr]
    have hr2 : self.IsReleased = false := hr
    by_cases hz : wrapInt32 (m.ints rc - 1) = 0
    · rw [if_pos hz]
      simp [Thread.steps, Thread.step, Thread.start, hv, hd, hr2, hrc, hfl, Heap.fetchSub, hz]
    · rw [if_neg hz]
      simp [Thread.steps, Thread.step, Thread.start, hv, hd, hr2, hrc, hfl, Heap.fetchSub, hz]

theorem countHolders_update_ge (f : Nat → Option FRefCountedStruct) (k j n : Nat)
    (v : Option FRefCountedStruct) (hj : n ≤ j) :
    countHolders (Function.update f j v) k n = countHolders f k n := by
  induction n with
  | zero => rfl
  | succ n ih =>
    have hne : n ≠ j := by omega
    simp only [countHolders, Function.update_noteq hne]
    rw [ih (by omega)]

theorem countHolders_update_lt (f : Nat → Option FRefCountedStruct) (k j n : Nat)
    (v : Option FRefCountedStruct) (hj : j < n) :
    countHolders (Function.update f j v) k n + (holds k (f j)).toNat
      = countHolders f k n + (holds k v).toNat := by
  induction n with
  | zero => omega
  | succ n ih =>
    by_cases hjn : j = n
    · subst hjn
      simp only [countHolders, Function.update_same]
      rw [countHolders_update_ge f k j j v (le_refl _)]
      omega
    · have hne : n ≠ j := fun e => hjn e.symm
      simp only [countHolders, Function.update_noteq hne]
      have := ih (by omega)
      omega

theorem countHolders_eq_zero (f : Nat → Option FRefCountedStruct) (k n : Nat)
    (h : ∀ i, i < n → holds k (f i) = false) : countHolders f k n = 0 := by
  induction n with
  | zero => rfl
  | succ n ih =>
    simp only [countHolders]
    rw [ih (fun i hi => h i (by omega)), h n (by omega)]
    rfl

theorem countHolders_zero_elim (f : Nat → Option FRefCountedStruct) (k n : Nat)
    (h : countHolders f k n = 0) (i : Nat) (hi : i < n) : holds k (f i) = false := by
  induction n with
  | zero => omega
  | succ n ih =>
    simp only [countHolders] at h
    by_cases hin : i = n
    · subst hin
      cases hb : holds k (f i) with
      | false => rfl
      | true => rw [hb] at h; simp at h
    · exact ih (by omega) (by omega)

/-- The holders after a write to the slot of an existing object. -/
theorem World.holders_same (w : World) (m : Heap) (d : Dispatch) (j : Nat)
    (v : Option FRefCountedStruct) (hj : j < w.nextObj) (k : Nat) :
    World.holders ⟨m, d, Function.update w.objs j v, w.nextObj⟩ k + (holds k (w.objs j)).toNat
      = w.holders k + (holds k v).toNat :=
  countHolders_update_lt w.objs k j w.nextObj v hj

/-- The holders after the construction of a new object. -/
theorem World.holders_push (w : World) (m : Heap) (d : Dispatch)
    (v : Option FRefCountedStruct) (k : Nat) :
    World.holders ⟨m, d, Function.update w.objs w.nextObj v, w.nextObj + 1⟩ k
      = w.holders k + (holds k v).toNat := by
  simp only [World.holders, countHolders, Function.update_same]
  rw [countHolders_update_ge w.objs k w.nextObj w.nextObj v (le_refl _)]

/-- No handle refers to a block that is not allocated yet. -/
theorem World.holders_fresh (w : World) (hw : w.WF) (k : Nat) (hk : w.heap.nextInt ≤ k) :
    w.holders k = 0 := by
  apply countHolders_eq_zero
  intro i _
  cases hi : w.objs i with
  | none => rfl
  | some h =>
    rcases hw.sound i h hi with ⟨k2, hk2, e1, _⟩ | ⟨e1, _⟩
    · have : k2 ≠ k := by omega
      simp [holds, e1, this]
    · simp [holds, e1]


theorem holds_some (k k0 : Nat) (fl : Option Nat) (b : Bool) :
    (holds k (some ⟨some k0, fl, b⟩)).toNat = if k = k0 ∧ b = false then 1 else 0 := by
  by_cases h : k = k0
  · subst h
    cases b <;> simp [holds]
  · have h2 : ¬ k0 = k := fun e => h e.symm
    cases b <;> simp [holds, h, h2]

/-- One public operation from a well-formed state: the event it performs on the shared
memory, and how the number of unreleased holders of a live block can change with it. -/
theorem World.step_holders (w : World) (hw : w.WF) (op : Op) :
    ∃ e, w.heap.Enabled e ∧ (w.step op).heap = w.heap.apply e ∧
      (∀ k, w.heap.bools k = false →
        ((w.step op).holders k : Int) ≤ (w.holders k : Int) + w.heap.delta e k) ∧
      (∀ k, e = .inc k → op.isCopy = true) := by
  have hidle : w.step op = w → ∃ e, w.heap.Enabled e ∧ (w.step op).heap = w.heap.apply e ∧
      (∀ k, w.heap.bools k = false →
        ((w.step op).holders k : Int) ≤ (w.holders k : Int) + w.heap.delta e k) ∧
      (∀ k, e = .inc k → op.isCopy = true) := by
    intro h
    rw [h]
    exact ⟨.idle, trivial, rfl, fun k _ => by simp [Heap.delta], by intro k hk; cases hk⟩
  cases op with
  | construct =>
    refine ⟨.alloc, trivial, rfl, ?_, by intro k hk; cases hk⟩
    intro k _
    have hst : w.step .construct = ⟨(defaultCtor w.heap).1, w.dispatch,
        Function.update w.objs w.nextObj (some (defaultCtor w.heap).2), w.nextObj + 1⟩ := rfl
    rw [hst, World.holders_push]
    have hv : (defaultCtor w.heap).2 = ⟨some w.heap.nextInt, some w.heap.nextBool, false⟩ := rfl
    rw [hv, holds_some]
    simp only [Heap.delta]
    split <;> split <;> simp_all
  | copyConstruct src =>
    by_cases hself : src = w.nextObj
    · subst hself
      rw [World.step_selfCopy w]
      refine ⟨.idle, trivial, rfl, ?_, by intro k hk; cases hk⟩
      intro k _
      rw [World.holders_push]
      simp [holds, FRefCountedStruct.uninit, Heap.delta]
    · have hne : w.nextObj ≠ src := fun e => hself e.symm
      cases ho : w.objs src with
      | none => exact hidle (World.step_copyConstruct_none w src ho hne)
      | some o =>
        rcases hw.sound src o ho with ⟨k0, hk0, hrc, hfl⟩ | ⟨hrc, hfl⟩
        · have hcp : uninit.CopyFrom o = ⟨some k0, some k0, false⟩ := by
            simp [FRefCountedStruct.CopyFrom, FRefCountedStruct.uninit, hrc, hfl]
          rw [World.step_copyConstruct w src o ho hne, hcp]
          cases hb : w.heap.bools k0 with
          | true =>
            have hinc : (⟨some k0, some k0, false⟩ :
                FRefCountedStruct).IncrementRefCounter w.heap = w.heap :=
              increment_of_destroying _ _ (by simp [FRefCountedStruct.IsDestroying, hb])
            rw [hinc]
            refine ⟨.idle, trivial, rfl, ?_, by intro k hk; cases hk⟩
            intro k hk
            rw [World.holders_push, holds_some]
            have hkk : k ≠ k0 := by
              rintro rfl
              rw [hb] at hk
              cases hk
            simp [Heap.delta, hkk]
          | false =>
            have hinc : (⟨some k0, some k0, false⟩ :
                FRefCountedStruct).IncrementRefCounter w.heap = w.heap.fetchAdd k0 1 := by
              simp [FRefCountedStruct.IncrementRefCounter, FRefCountedStruct.IsDestroying, hb]
            rw [hinc]
            refine ⟨.inc k0, ⟨hk0, hb⟩, rfl, ?_, fun _ _ => rfl⟩
            intro k _
            rw [World.holders_push, holds_some]
            simp only [Heap.delta]
            split <;> split <;> simp_all
        · have hcp : uninit.CopyFrom o = ⟨none, none, false⟩ := by
            simp [FRefCountedStruct.CopyFrom, FRefCountedStruct.uninit, hrc, hfl]
          rw [World.step_copyConstruct w src o ho hne, hcp]
          have hinc : (⟨none, none, false⟩ : FRefCountedStruct).IncrementRefCounter w.heap
              = w.heap := rfl
          rw [hinc]
          refine ⟨.idle, trivial, rfl, ?_, by intro k hk; cases hk⟩
          intro k _
          rw [World.holders_push]
          simp [holds, Heap.delta]
  | copyAssign dst src =>
    cases hd : w.objs dst with
    | none => exact hidle (by simp [World.step, hd])
    | some d =>
      cases ho : w.objs src with
      | none => exact hidle (by simp [World.step, hd, ho])
      | some o =>
        have hdn := w.lt_nextObj hw dst d hd
        by_cases hne : dst = src
        · subst hne
          apply hidle
          have hu : Function.update w.objs dst (some d) = w.objs := by
            rw [← hd]
            exact Function.update_eq_self dst w.objs
          simp [World.step, hd, FRefCountedStruct.assign, FRefCountedStruct.copyBody, hu]
        · rcases hw.sound src o ho with ⟨k0, hk0, hrc, hfl⟩ | ⟨hrc, hfl⟩
          swap
          · have hcp : d.CopyFrom o = ⟨none, none, d.bReleased⟩ := by
              simp [FRefCountedStruct.CopyFrom, hrc, hfl]
            rw [World.step_copyAssign w dst src d o hd ho hne, hcp]
            have hinc : (⟨none, none, d.bReleased⟩ :
                FRefCountedStruct).IncrementRefCounter w.heap = w.heap := rfl
            rw [hinc]
            refine ⟨.idle, trivial, rfl, ?_, by intro k hk; cases hk⟩
            intro k _
            have hs := World.holders_same w w.heap w.dispatch dst
              (some ⟨none, none, d.bReleased⟩) hdn k
            have hz : holds k (some ⟨none, none, d.bReleased⟩) = false := by
              simp [holds]
            rw [hz] at hs
            simp only [Heap.delta, Bool.toNat_false] at hs ⊢
            omega
          have hcp : d.CopyFrom o = ⟨some k0, some k0, d.bReleased⟩ := by
            simp [FRefCountedStruct.CopyFrom, hrc, hfl]
          rw [World.step_copyAssign w dst src d o hd ho hne, hcp]
          cases hb : w.heap.bools k0 with
          | true =>
            have hinc : (⟨some k0, some k0, d.bReleased⟩ :
                FRefCountedStruct).IncrementRefCounter w.heap = w.heap :=
              increment_of_destroying _ _ (by simp [FRefCountedStruct.IsDestroying, hb])
            rw [hinc]
            refine ⟨.idle, trivial, rfl, ?_, by intro k hk; cases hk⟩
            intro k hk
            have hkk : k ≠ k0 := by
              rintro rfl
              rw [hb] at hk
              cases hk
            have hs := World.holders_same w w.heap w.dispatch dst
              (some ⟨some k0, some k0, d.bReleased⟩) hdn k
            rw [holds_some] at hs
            simp only [hkk, false_and, if_false] at hs
            simp only [Heap.delta]
            omega
          | false =>
            have hinc : (⟨some k0, some k0, d.bReleased⟩ :
                FRefCountedStruct).IncrementRefCounter w.heap = w.heap.fetchAdd k0 1 := by
              simp [FRefCountedStruct.IncrementRefCounter, FRefCountedStruct.IsDestroying, hb]
            rw [hinc]
            refine ⟨.inc k0, ⟨hk0, hb⟩, rfl, ?_, fun _ _ => rfl⟩
            intro k _
            have hs := World.holders_same w (w.heap.fetchAdd k0 1) w.dispatch dst
              (some ⟨some k0, some k0, d.bReleased⟩) hdn k
            rw [holds_some] at hs
            simp only [Heap.delta]
            split at hs <;> split <;> simp_all <;> omega
  | release i =>
    cases hi : w.objs i with
    | none => exact hidle (by simp [World.step, hi])
    | some h =>
      have hin := w.lt_nextObj hw i h hi
      rw [World.step_release w i h hi]
      obtain ⟨_, _, hc⟩ := release_sound h w.heap (hw.sound i h hi)
      rcases hc with ⟨hc, _⟩ | ⟨k0, hrc, hrel, hrel2, hev⟩
      · rw [hc]
        refine ⟨.idle, trivial, rfl, ?_, by intro k hk; cases hk⟩
        intro k _
        have hs := World.holders_same w w.heap w.dispatch i (some h) hin k
        rw [hi] at hs
        simp only [Heap.delta]
        omega
      · have hold : ∀ k, (holds k (w.objs i)).toNat = if k = k0 then 1 else 0 := by
          intro k
          rw [hi]
          obtain ⟨r, f, b⟩ := h
          simp only at hrc hrel
          subst hrc hrel
          rw [holds_some]
          simp
        have hnew : ∀ k, (holds k (some (h.ReleaseReference w.heap).2)).toNat = 0 := by
          intro k
          simp [holds, hrel2]
        have key : ∀ (m : Heap) (k : Nat),
            ((World.holders ⟨m, w.dispatch,
              Function.update w.objs i (some (h.ReleaseReference w.heap).2), w.nextObj⟩ k
                : Nat) : Int)
              ≤ (w.holders k : Int) + (if k = k0 then -1 else 0) := by
          intro m k
          have hs := World.holders_same w m w.dispatch i
            (some (h.ReleaseReference w.heap).2) hin k
          rw [hold, hnew] at hs
          split at hs <;> simp_all
          omega
        rcases hev with ⟨hen, hc⟩ | ⟨hen, hc⟩
        · exact ⟨.dec k0, hen, hc, fun k _ => key _ k, by intro k hk; cases hk⟩
        · exact ⟨.fin k0, hen, hc, fun k _ => key _ k, by intro k hk; cases hk⟩
  | dispose i latency =>
    cases hi : w.objs i with
    | none => exact hidle (by simp [World.step, hi])
    | some h =>
      have hin := w.lt_nextObj hw i h hi
      cases hb : h.bReleased with
      | true =>
        have hst : w.step (.dispose i latency) =
            ⟨w.heap, w.dispatch, Function.update w.objs i none, w.nextObj⟩ := by
          simp [World.step, hi, FRefCountedStruct.destructor, hb]
        rw [hst]
        refine ⟨.idle, trivial, rfl, ?_, by intro k hk; cases hk⟩
        intro k _
        have hs := World.holders_same w w.heap w.dispatch i none hin k
        simp only [Heap.delta]
        simp only [holds, Bool.toNat_false] at hs
        omega
      | false =>
        have hst : w.step (.dispose i latency) =
            ⟨(h.ReleaseReference w.heap).1,
              pollUntilReady latency { w.dispatch with tasks := w.dispatch.tasks + 1 },
              Function.update w.objs i none, w.nextObj⟩ := by
          simp [World.step, hi, FRefCountedStruct.destructor, hb, ExecuteOnGameThread]
        rw [hst]
        obtain ⟨_, _, hc⟩ := release_sound h w.heap (hw.sound i h hi)
        rcases hc with ⟨hc, _⟩ | ⟨k0, hrc, hrel, hrel2, hev⟩
        · rw [hc]
          refine ⟨.idle, trivial, rfl, ?_, by intro k hk; cases hk⟩
          intro k _
          have hs := World.holders_same w w.heap
            (pollUntilReady latency { w.dispatch with tasks := w.dispatch.tasks + 1 })
            i none hin k
          simp only [Heap.delta]
          simp only [holds, Bool.toNat_false] at hs
          omega
        · have hold : ∀ k, (holds k (w.objs i)).toNat = if k = k0 then 1 else 0 := by
            intro k
            rw [hi]
            obtain ⟨r, f, b⟩ := h
            simp only at hrc hrel
            subst hrc hrel
            rw [holds_some]
            simp
          have key : ∀ (m : Heap) (k : Nat),
              ((World.holders ⟨m,
                pollUntilReady latency { w.dispatch with tasks := w.dispatch.tasks + 1 },
                Function.update w.objs i none, w.nextObj⟩ k : Nat) : Int)
                ≤ (w.holders k : Int) + (if k = k0 then -1 else 0) := by
            intro m k
            have hs := World.holders_same w m
              (pollUntilReady latency { w.dispatch with tasks := w.dispatch.tasks + 1 })
              i none hin k
            rw [hold] at hs
            simp only [holds, Bool.toNat_false] at hs
            split at hs <;> simp_all
            omega
          rcases hev with ⟨hen, hc⟩ | ⟨hen, hc⟩
          · exact ⟨.dec k0, hen, hc, fun k _ => key _ k, by intro k hk; cases hk⟩
          · exact ⟨.fin k0, hen, hc, fun k _ => key _ k, by intro k hk; cases hk⟩

/-- One operation keeps the tracking of holders by counters. -/
theorem World.Tracked.step_tracked {w : World} {n : Nat} (ht : w.Tracked n) (hw : w.WF)
    (op : Op) : (w.step op).Tracked (n + if op.isCopy = true then 1 else 0) := by
  obtain ⟨e, he, heq, hdelta, hcopy⟩ := w.step_holders hw op
  intro k hk hbk
  rw [heq] at hk hbk ⊢
  cases e with
  | idle =>
    simp only [Heap.apply] at hk hbk ⊢
    obtain ⟨t, h1, h2, h3, h4⟩ := ht k hk hbk
    have hd := hdelta k hbk
    simp only [Heap.delta] at hd
    exact ⟨t, by omega, h2, by push_cast; split <;> omega, h4⟩
  | alloc =>
    simp only [Heap.apply, FRefCountedStruct.Initialize, Heap.newInt, Heap.newBool] at hk hbk ⊢
    by_cases hkn : k = w.heap.nextInt
    · have hfresh := w.holders_fresh hw k (by omega)
      have hbo : w.heap.bools k = false :=
        hw.heap.freshBool k (by have := hw.heap.next_eq; omega)
      have hd := hdelta k hbo
      simp only [Heap.delta, hkn, if_true] at hd
      rw [hkn] at hfresh
      rw [hkn, Function.update_same]
      refine ⟨1, by omega, le_refl _, by push_cast; split <;> omega, by decide⟩
    · have hkb : k ≠ w.heap.nextBool := by rw [← hw.heap.next_eq]; exact hkn
      rw [Function.update_noteq hkb] at hbk
      rw [Function.update_noteq hkn]
      obtain ⟨t, h1, h2, h3, h4⟩ := ht k (by omega) hbk
      have hd := hdelta k hbk
      simp only [Heap.delta, hkn, if_false] at hd
      exact ⟨t, by omega, h2, by push_cast; split <;> omega, h4⟩
  | inc a =>
    have hcp := hcopy a rfl
    simp only [Heap.apply, Heap.fetchAdd] at hk hbk ⊢
    obtain ⟨t, h1, h2, h3, h4⟩ := ht k hk hbk
    have hd := hdelta k hbk
    simp only [Heap.delta] at hd
    by_cases hka : k = a
    · subst hka
      rw [Function.update_same]
      simp only [if_true] at hd
      refine ⟨t + 1, by omega, by omega, ?_, by rw [h4, wrapInt32_add]⟩
      rw [hcp]
      push_cast
      simp only [if_true]
      omega
    · rw [Function.update_noteq hka]
      simp only [hka, if_false] at hd
      exact ⟨t, by omega, h2, by push_cast; split <;> omega, h4⟩
  | dec a =>
    simp only [Heap.apply, Heap.fetchSub] at hk hbk ⊢
    obtain ⟨t, h1, h2, h3, h4⟩ := ht k hk hbk
    have hd := hdelta k hbk
    simp only [Heap.delta] at hd
    by_cases hka : k = a
    · subst hka
      rw [Function.update_same]
      simp only [if_true] at hd
      have hz := he.2.2
      rw [h4, wrapInt32_sub] at hz
      have ht1 : 1 ≤ t - 1 := by
        by_contra hlt
        have : t - 1 = 0 := by omega
        rw [this] at hz
        exact hz (by decide)
      exact ⟨t - 1, by omega, ht1, by push_cast; split <;> omega,
        by rw [h4, wrapInt32_sub]⟩
    · rw [Function.update_noteq hka]
      simp only [hka, if_false] at hd
      exact ⟨t, by omega, h2, by push_cast; split <;> omega, h4⟩
  | fin a =>
    simp only [Heap.apply, Heap.finalize, FRefCountedStruct.OnAllReferencesReleased,
      Heap.fetchSub, Heap.storeBool] at hk hbk ⊢
    by_cases hka : k = a
    · subst hka
      rw [Function.update_same] at hbk
      cases hbk
    · rw [Function.update_noteq hka] at hbk
      rw [Function.update_noteq hka]
      obtain ⟨t, h1, h2, h3, h4⟩ := ht k hk hbk
      have hd := hdelta k hbk
      simp only [Heap.delta, hka, if_false] at hd
      exact ⟨t, by omega, h2, by push_cast; split <;> omega, h4⟩

theorem World.runFrom_tracked (w : World) (hw : w.WF) (n : Nat) (ht : w.Tracked n)
    (ops : List Op) : (w.runFrom ops).Tracked (n + copyOps ops) := by
  induction ops generalizing w n with
  | nil => simpa [World.runFrom, copyOps] using ht
  | cons op ops ih =>
    rw [copyOps_cons]
    obtain ⟨_, _, _, hw2, _⟩ := w.step_event hw op
    have := ih (w.step op) hw2 _ (ht.step_tracked hw op)
    rw [World.runFrom_cons]
    have e2 : n + (copyOps ops + if op.isCopy = true then 1 else 0)
        = (n + if op.isCopy = true then 1 else 0) + copyOps ops := by omega
    rw [e2]
    exact this

theorem World.run_tracked (ops : List Op) : (World.run ops).Tracked (copyOps ops) := by
  have h := World.runFrom_tracked World.init World.init_wf 0
    (by intro k hk; simp [World.init, Heap.empty] at hk) ops
  rw [Nat.zero_add] at h
  exact h

theorem World.nextObj_copyAssign (w : World) (dst src : Nat) :
    (w.step (.copyAssign dst src)).nextObj = w.nextObj := by
  cases hd : w.objs dst <;> cases ho : w.objs src <;> simp [World.step, hd, ho]

theorem World.assign_loop_nextObj (n : Nat) :
    (World.run (.construct :: .construct :: List.replicate n (.copyAssign 1 0))).nextObj
      = 2 := by
  induction n with
  | zero => decide
  | succ n ih =>
    have hl : (Op.construct :: Op.construct :: List.replicate (n + 1) (Op.copyAssign 1 0))
        = (Op.construct :: Op.construct :: List.replicate n (Op.copyAssign 1 0))
          ++ [Op.copyAssign 1 0] := by
      rw [List.replicate_succ' n]
      rfl
    rw [hl, World.run_snoc, World.nextObj_copyAssign, ih]

/-- In the assignment loop both handles stay unreleased holders of block 0. -/
theorem World.assign_loop_holders (n : Nat) :
    (World.run (.construct :: .construct ::
      List.replicate (n + 1) (.copyAssign 1 0))).holders 0 = 2 := by
  obtain ⟨h0, h1, _, _, _⟩ := World.assign_loop n
  have hn := World.assign_loop_nextObj (n + 1)
  unfold World.holders
  rw [hn]
  simp only [countHolders]
  rw [h0, h1]
  rfl

/-- In the assignment loop, once the counter reads 1 again, a release of the first handle
finalizes the block although the second handle is unreleased. -/
theorem World.assign_loop_release (n : Nat) (hone : wrapInt32 ((n : Int) + 2) = 1) :
    ((World.run (.construct :: .construct ::
      List.replicate (n + 1) (.copyAssign 1 0))).step (.release 0)).heap.hookCount 0
        = (World.run (.construct :: .construct ::
            List.replicate (n + 1) (.copyAssign 1 0))).heap.hookCount 0 + 1 ∧
    ((World.run (.construct :: .construct ::
      List.replicate (n + 1) (.copyAssign 1 0))).step (.release 0)).objs 1
        = some ⟨some 0, some 0, false⟩ := by
  obtain ⟨h0, h1, hi, hb, _⟩ := World.assign_loop n
  rw [World.step_release _ 0 _ h0]
  have hz : wrapInt32 ((World.run (.construct :: .construct ::
      List.replicate (n + 1) (.copyAssign 1 0))).heap.ints 0 - 1) = 0 := by
    rw [hi, hone]
    decide
  have hlive := releaseReference_of_live ⟨some 0, some 0, false⟩
    (World.run (.construct :: .construct ::
      List.replicate (n + 1) (.copyAssign 1 0))).heap 0 0 rfl rfl hb rfl
  rw [if_pos hz] at hlive
  rw [hlive]
  constructor
  · have := hookCount_finalize (World.run (.construct :: .construct ::
      List.replicate (n + 1) (.copyAssign 1 0))).heap 0 0
    rw [if_pos rfl] at this
    exact this
  · have hne : (1 : Nat) ≠ 0 := by decide
    simp only [Function.update_noteq hne]
    exact h1

/-- The destructor on a handle that is not released: it terminates for every latency of
the dispatch service, submits one task, polls until the future is ready and leaves the
memory and the handle of `ReleaseReference()` with the base hook. -/
theorem destructor_of_unreleased (self : FRefCountedStruct) (m : Heap) (d : Dispatch)
    (latency : Nat) (hr : self.IsReleased = false) :
    (self.destructor m d latency).1 = self.ReleaseReference m ∧
    (self.destructor m d latency).2.tasks = d.tasks + 1 ∧
    (self.destructor m d latency).2.waits = d.waits + latency := by
  have hb : self.bReleased = false := hr
  have key : self.destructor m d latency =
      (self.ReleaseReference m,
        pollUntilReady latency { d with tasks := d.tasks + 1 }) := by
    simp [FRefCountedStruct.destructor, hb, ExecuteOnGameThread]
  rw [key]
  obtain ⟨h1, h2⟩ := pollUntilReady_tasks latency { d with tasks := d.tasks + 1 }
  exact ⟨rfl, h1, h2⟩

/-- The destruction of an object of any dynamic type leaves the memory, the members and
the dispatch state that `~FRefCountedStruct()` leaves on its members: the override of
the hook plays no part. -/
theorem Object.destructor_members (o : Object) (m : Heap) (d : Dispatch) (latency : Nat) :
    (o.destructor m d latency).1.1 = (o.members.destructor m d latency).1.1 ∧
    (o.destructor m d latency).1.2.members = (o.members.destructor m d latency).1.2 ∧
    (o.destructor m d latency).2 = (o.members.destructor m d latency).2 := by
  unfold Object.destructor FRefCountedStruct.destructor
  cases hb : o.members.bReleased with
  | true => simp [hb]
  | false =>
    simp [hb, ExecuteOnGameThread, Object.ReleaseReference, FRefCountedStruct.ReleaseReference]

/-- On an object whose type is `FRefCountedStruct` itself the destructor path and
`Release()` agree. -/
theorem Object.destructor_ofBase (h : FRefCountedStruct) (m : Heap) (d : Dispatch)
    (latency : Nat) (hr : h.IsReleased = false) :
    ((Object.ofBase h).destructor m d latency).1 = (Object.ofBase h).Release m := by
  have hb : h.bReleased = false := hr
  simp [Object.destructor, Object.ofBase, Object.Release, Object.ReleaseReference, hb,
    ExecuteOnGameThread]

/-- `ReleaseReference` leaves the counter pointer of the handle as it is. -/
theorem releaseReference_refCount (h : FRefCountedStruct) (m : Heap) :
    (h.ReleaseReference m).2.RefCount = h.RefCount := by
  unfold FRefCountedStruct.ReleaseReference FRefCountedStruct.ReleaseReferenceVia
  split
  · rfl
  · split
    · dsimp only
      split
      · rfl
      · rfl
    · rfl

/-- An operation other than a self copy-construction keeps every live handle on a
block. -/
theorem World.step_valid (w : World) (op : Op) (hop : op.isSelfCopy w = false)
    (hv : ∀ i h, w.objs i = some h → h.IsValid = true) (i : Nat) (h : FRefCountedStruct)
    (hi : (w.step op).objs i = some h) : h.IsValid = true := by
  have hupd : ∀ (m : Heap) (d : Dispatch) (j n : Nat) (v : Option FRefCountedStruct),
      (∀ x, v = some x → x.IsValid = true) →
      (World.mk m d (Function.update w.objs j v) n).objs i = some h → h.IsValid = true := by
    intro m d j n v hvv hh
    simp only at hh
    by_cases hij : i = j
    · subst hij
      rw [Function.update_same] at hh
      exact hvv h hh
    · rw [Function.update_noteq hij] at hh
      exact hv i h hh
  cases op with
  | construct =>
    refine hupd _ _ _ _ _ ?_ hi
    intro x hx
    cases hx
    rfl
  | copyConstruct src =>
    have hself : ¬ src = w.nextObj := by
      simpa [Op.isSelfCopy] using hop
    cases ho : w.objs src with
    | none =>
      rw [World.step_copyConstruct_none w src ho (fun e => hself e.symm)] at hi
      exact hv i h hi
    | some o =>
      rw [World.step_copyConstruct w src o ho (fun e => hself e.symm)] at hi
      refine hupd _ _ _ _ _ ?_ hi
      intro x hx
      cases hx
      exact hv src o ho
  | copyAssign dst src =>
    cases hd : w.objs dst with
    | none =>
      have : w.step (.copyAssign dst src) = w := by simp [World.step, hd]
      rw [this] at hi
      exact hv i h hi
    | some d =>
      cases ho : w.objs src with
      | none =>
        have : w.step (.copyAssign dst src) = w := by simp [World.step, hd, ho]
        rw [this] at hi
        exact hv i h hi
      | some o =>
        have hst : w.step (.copyAssign dst src) =
            ⟨(d.assign w.heap dst src o).1, w.dispatch,
              Function.update w.objs dst (some (d.assign w.heap dst src o).2), w.nextObj⟩ := by
          simp [World.step, hd, ho]
        rw [hst] at hi
        refine hupd _ _ _ _ _ ?_ hi
        intro x hx
        cases hx
        by_cases hne : dst = src
        · simp only [FRefCountedStruct.assign, FRefCountedStruct.copyBody, hne, ne_eq,
            not_true_eq_false, if_false]
          exact hv dst d hd
        · simp only [FRefCountedStruct.assign, FRefCountedStruct.copyBody, ne_eq, hne,
            not_false_eq_true, if_true]
          exact hv src o ho
  | release j =>
    cases hj : w.objs j with
    | none =>
      have : w.step (.release j) = w := by simp [World.step, hj]
      rw [this] at hi
      exact hv i h hi
    | some r =>
      rw [World.step_release w j r hj] at hi
      refine hupd _ _ _ _ _ ?_ hi
      intro x hx
      cases hx
      have := hv j r hj
      simpa [FRefCountedStruct.IsValid, releaseReference_refCount] using this
  | dispose j latency =>
    cases hj : w.objs j with
    | none =>
      have : w.step (.dispose j latency) = w := by simp [World.step, hj]
      rw [this] at hi
      exact hv i h hi
    | some r =>
      have hst : w.step (.dispose j latency) =
          ⟨(r.destructor w.heap w.dispatch latency).1.1,
            (r.destructor w.heap w.dispatch latency).2,
            Function.update w.objs j none, w.nextObj⟩ := by
        simp [World.step, hj]
      rw [hst] at hi
      refine hupd _ _ _ _ _ ?_ hi
      intro x hx
      cases hx

/-- A program without self copy-construction keeps every live handle on a block. -/
theorem World.runFrom_valid (w : World) (ops : List Op) (hfree : w.selfCopyFree ops = true)
    (hv : ∀ i h, w.objs i = some h → h.IsValid = true) (i : Nat) (h : FRefCountedStruct)
    (hi : (w.runFrom ops).objs i = some h) : h.IsValid = true := by
  induction ops generalizing w with
  | nil => exact hv i h hi
  | cons op ops ih =>
    simp only [World.selfCopyFree, Bool.and_eq_true, Bool.not_eq_true'] at hfree
    rw [World.runFrom_cons] at hi
    exact ih (w.step op) hfree.2 (fun j x hj => w.step_valid op hfree.1 hv j x hj) hi

/-! ## The claims -/

/-- C1, as amended: for every N, one default-constructed handle, N copies made from it or
from its copies, then `Release()` once on each of the N + 1 handles in any order: every
handle reports `GetRefCount() == 0` and the hook has been invoked exactly once in total.
When N < 2^32 the invocation happens on the last release of the sequence (no hook call
has happened before it). -/
theorem copies_then_releases (srcs order : List Nat) (hs : validSources 1 srcs = true)
    (ho : order.Perm (List.range (srcs.length + 1))) :
    (∀ i, i ≤ srcs.length → ∃ h, (World.run (shareProgram srcs order)).objs i = some h ∧
      h.GetRefCount (World.run (shareProgram srcs order)).heap = 0) ∧
    (World.run (shareProgram srcs order)).heap.hooks.length = 1 ∧
    (srcs.length < 4294967296 →
      (World.run (shareProgram srcs order.dropLast)).heap.hooks.length = 0) := by
  obtain ⟨hobj, hz, hh⟩ := World.shareProgram_final srcs order hs ho
  refine ⟨?_, hh, (World.shareProgram_before_last srcs order hs ho).1⟩
  intro i hi
  obtain ⟨b, hb⟩ := hobj i (by omega)
  exact ⟨_, hb, (getRefCount_some 0 (some 0) b _).trans hz⟩

/-- Witness for C1 as amended: three copies (of the original, of the first copy, of the
original again) released in the order 2, 0, 3, 1. -/
theorem copies_then_releases_witness :
    validSources 1 [0, 1, 0] = true ∧
    (World.run (shareProgram [0, 1, 0] [2, 0, 3, 1])).heap.hooks.length = 1 ∧
    (World.run (shareProgram [0, 1, 0] [2, 0, 3])).heap.hooks.length = 0 :=
  ⟨by decide, (copies_then_releases [0, 1, 0] [2, 0, 3, 1] (by decide) (by decide)).2.1,
    (copies_then_releases [0, 1, 0] [2, 0, 3, 1] (by decide) (by decide)).2.2 (by decide)⟩

/-- Counterexample to C1 as stated: with N = 2^32 copies of the original handle, released
in the order of their creation (a permutation of all 2^32 + 1 handles), the counter has
wrapped around to 1 after the copies and the hook has already been invoked before the
last release. -/
theorem hook_before_last_release :
    (List.replicate 4294967296 0).length = 4294967296 ∧
    validSources 1 (List.replicate 4294967296 0) = true ∧
    (World.run (shareProgram (List.replicate 4294967296 0)
      (List.range (4294967296 + 1)).dropLast)).heap.hooks.length = 1 := by
  have hv := validSources_replicate 1 4294967296 (le_refl 1)
  have hl := List.length_replicate 4294967296 0
  have h := (World.shareProgram_before_last (List.replicate 4294967296 0)
    (List.range ((List.replicate 4294967296 0).length + 1)) hv (List.Perm.refl _)).2
    (le_of_eq hl.symm)
  rw [hl] at h
  exact ⟨hl, hv, h⟩

/-- C2: `Release()` is idempotent per copy. Calling it twice in a row on a handle, in any
state, gives exactly the memory (counter, destroying flag, hook trace) and the handle
(released flag) that calling it once gives; the counter after the pair is either the
counter before or the counter before decremented once. -/
theorem release_idempotent (self : FRefCountedStruct) (m : Heap) :
    (self.Release m).2.Release (self.Release m).1 = self.Release m ∧
    ((self.Release m).2.Release (self.Release m).1).1.hooks.length
      = (self.Release m).1.hooks.length ∧
    ((((self.Release m).2.Release (self.Release m).1).2.GetRefCount
        ((self.Release m).2.Release (self.Release m).1).1 = self.GetRefCount m) ∨
     (((self.Release m).2.Release (self.Release m).1).2.GetRefCount
        ((self.Release m).2.Release (self.Release m).1).1
          = wrapInt32 (self.GetRefCount m - 1))) := by
  have key : (self.Release m).2.Release (self.Release m).1 = self.Release m := by
    unfold FRefCountedStruct.Release
    by_cases hg : self.IsValid = false ∨ self.IsDestroying m = true ∨ self.IsReleased = true
    · rw [releaseReference_of_guard self m hg]
      exact releaseReference_of_guard self m hg
    · have hv : self.IsValid = true := by
        cases h : self.IsValid <;> simp_all
      have hd : self.IsDestroying m = false := by
        cases h : self.IsDestroying m <;> simp_all
      have hr : self.bReleased = false := by
        cases h : self.bReleased <;> simp_all [FRefCountedStruct.IsReleased]
      obtain ⟨rc, fl, hrc, hfl, hb⟩ := live_cases self m hv hd
      rw [releaseReference_of_live self m rc fl hrc hfl hb hr]
      split <;> exact releaseReference_of_guard _ _ (Or.inr (Or.inr rfl))
  refine ⟨key, by rw [key], ?_⟩
  rw [key]
  unfold FRefCountedStruct.Release
  by_cases hg : self.IsValid = false ∨ self.IsDestroying m = true ∨ self.IsReleased = true
  · left
    rw [releaseReference_of_guard self m hg]
  · right
    have hv : self.IsValid = true := by
      cases h : self.IsValid <;> simp_all
    have hd : self.IsDestroying m = false := by
      cases h : self.IsDestroying m <;> simp_all
    have hr : self.bReleased = false := by
      cases h : self.bReleased <;> simp_all [FRefCountedStruct.IsReleased]
    obtain ⟨rc, fl, hrc, hfl, hb⟩ := live_cases self m hv hd
    rw [releaseReference_of_live self m rc fl hrc hfl hb hr]
    split <;>
      simp [FRefCountedStruct.GetRefCount, FRefCountedStruct.OnAllReferencesReleased,
        Heap.fetchSub, Heap.storeBool, hrc]

/-- C3: on a handle that is valid, not destroying and not released, `Release()`
decrements the shared counter by one (in the counter's int32 arithmetic, which is an
exact decrement whenever the result is representable), sets the released flag of this
copy and keeps its pointers. When the new count is zero the destroying flag is set and
the hook is invoked once; when it is non-zero the flag stays false and the hook is not
invoked. -/
theorem release_live (self : FRefCountedStruct) (m : Heap)
    (hv : self.IsValid = true) (hd : self.IsDestroying m = false)
    (hr : self.IsReleased = false) :
    (self.Release m).2.GetRefCount (self.Release m).1 = wrapInt32 (self.GetRefCount m - 1) ∧
    (-2147483648 < self.GetRefCount m → self.GetRefCount m ≤ 2147483648 →
      (self.Release m).2.GetRefCount (self.Release m).1 = self.GetRefCount m - 1) ∧
    (self.Release m).2.IsReleased = true ∧
    (self.Release m).2.RefCount = self.RefCount ∧
    (self.Release m).2.bIsDestroying = self.bIsDestroying ∧
    ((self.Release m).2.GetRefCount (self.Release m).1 = 0 →
      (self.Release m).2.IsDestroying (self.Release m).1 = true ∧
      ∃ call, (self.Release m).1.hooks = m.hooks ++ [call]) ∧
    ((self.Release m).2.GetRefCount (self.Release m).1 ≠ 0 →
      (self.Release m).2.IsDestroying (self.Release m).1 = false ∧
      (self.Release m).1.hooks = m.hooks) := by
  obtain ⟨rc, fl, hrc, hfl, hb⟩ := live_cases self m hv hd
  have hr2 : self.bReleased = false := hr
  unfold FRefCountedStruct.Release
  rw [releaseReference_of_live self m rc fl hrc hfl hb hr2]
  have hc : self.GetRefCount m = m.ints rc := by simp [FRefCountedStruct.GetRefCount, hrc]
  rw [hc]
  by_cases hz : wrapInt32 (m.ints rc - 1) = 0
  · simp only [hz, if_true]
    simp [FRefCountedStruct.GetRefCount, FRefCountedStruct.OnAllReferencesReleased,
      FRefCountedStruct.IsDestroying, FRefCountedStruct.IsReleased,
      Heap.fetchSub, Heap.storeBool, hrc, hfl, hz]
    intro h1 h2
    unfold wrapInt32 at hz
    omega
  · simp only [hz, if_false]
    simp [FRefCountedStruct.GetRefCount, FRefCountedStruct.IsDestroying,
      FRefCountedStruct.IsReleased, Heap.fetchSub, hrc, hfl, hz, hb]
    intro h1 h2
    unfold wrapInt32
    omega

/-- Witness for C3: the last holder of a fresh block releases it. -/
theorem release_live_witness :
    (⟨some 0, some 0, false⟩ : FRefCountedStruct).IsValid = true ∧
    ((⟨some 0, some 0, false⟩ : FRefCountedStruct).Release
        (FRefCountedStruct.defaultCtor Heap.empty).1).2.IsReleased = true :=
  ⟨rfl, (release_live ⟨some 0, some 0, false⟩ (FRefCountedStruct.defaultCtor Heap.empty).1
    rfl rfl rfl).2.2.1⟩

/-- C4: `Release()` is a silent no-op when the block is absent, when the block is marked
destroying, or when this copy is already released: the memory (counter, destroying flag,
hook trace) and the handle (released flag) are returned unchanged. -/
theorem release_guarded_noop (self : FRefCountedStruct) (m : Heap)
    (h : self.IsValid = false ∨ self.IsDestroying m = true ∨ self.IsReleased = true) :
    self.Release m = (m, self) ∧
    (self.Release m).2.GetRefCount (self.Release m).1 = self.GetRefCount m ∧
    (self.Release m).2.IsDestroying (self.Release m).1 = self.IsDestroying m ∧
    (self.Release m).2.IsReleased = self.IsReleased ∧
    (self.Release m).1.hooks = m.hooks := by
  have key : self.Release m = (m, self) := releaseReference_of_guard self m h
  simp [key]

/-- Witness for C4: a second `Release()` on a copy that is already released. -/
theorem release_guarded_noop_witness :
    (⟨some 0, some 0, true⟩ : FRefCountedStruct).IsReleased = true ∧
    (⟨some 0, some 0, true⟩ : FRefCountedStruct).Release Heap.empty
      = (Heap.empty, ⟨some 0, some 0, true⟩) :=
  ⟨rfl, (release_guarded_noop ⟨some 0, some 0, true⟩ Heap.empty (Or.inr (Or.inr rfl))).1⟩

/-- C6, the code at the failing input `FRefCountedStruct a, b; b.Release(); b = a;`:
after the assignment `b` shares the block of `a` and the count of that block has gone
from 1 to 2, but `b.IsReleased()` is still true. The reference counted for `b` can then
never be given back: after `a.Release(); b.Release();` and the disposal of both handles
the count is still 1 and the hook has not been invoked for the block. -/
theorem assign_to_released_stays_released :
    (World.run [.construct, .construct, .release 1]).objs 1
      = some ⟨some 1, some 1, true⟩ ∧
    (World.run [.construct, .construct, .release 1]).heap.ints 0 = 1 ∧
    (World.run [.construct, .construct, .release 1, .copyAssign 1 0]).objs 1
      = some ⟨some 0, some 0, true⟩ ∧
    (⟨some 0, some 0, true⟩ : FRefCountedStruct).IsReleased = true ∧
    (World.run [.construct, .construct, .release 1, .copyAssign 1 0]).heap.ints 0 = 2 ∧
    (World.run [.construct, .construct, .release 1, .copyAssign 1 0,
      .release 0, .release 1, .dispose 0 0, .dispose 1 0]).heap.ints 0 = 1 ∧
    (World.run [.construct, .construct, .release 1, .copyAssign 1 0,
      .release 0, .release 1, .dispose 0 0, .dispose 1 0]).heap.hookCount 0 = 0 := by
  decide

/-- C7: copying a handle whose block is destroying gives a dead copy. Neither
copy-construction nor copy-assignment into a distinct object changes the memory (so the
count stays as it is), and `Release()` on the copy changes nothing either: counter,
destroying flag and hook trace are as before. -/
theorem copy_of_destroying_dead (self other : FRefCountedStruct) (m : Heap)
    (thisAddr otherAddr : Nat) (hne : thisAddr ≠ otherAddr)
    (hd : other.IsDestroying m = true) :
    (FRefCountedStruct.copyCtor m thisAddr otherAddr other).1 = m ∧
    (FRefCountedStruct.copyCtor m thisAddr otherAddr other).2.Release m
      = (m, (FRefCountedStruct.copyCtor m thisAddr otherAddr other).2) ∧
    (self.assign m thisAddr otherAddr other).1 = m ∧
    (self.assign m thisAddr otherAddr other).2.Release m
      = (m, (self.assign m thisAddr otherAddr other).2) := by
  have hcopy : ∀ s : FRefCountedStruct, (s.CopyFrom other).IsDestroying m = true := by
    intro s
    simpa [FRefCountedStruct.CopyFrom, FRefCountedStruct.IsDestroying] using hd
  unfold FRefCountedStruct.copyCtor FRefCountedStruct.assign
  refine ⟨?_, ?_, ?_, ?_⟩
  · rw [copyBody_fst _ _ _ _ _ hne]
    exact increment_of_destroying _ _ (hcopy _)
  · rw [copyBody_snd _ _ _ _ _ hne]
    exact releaseReference_of_guard _ _ (Or.inr (Or.inl (hcopy _)))
  · rw [copyBody_fst _ _ _ _ _ hne]
    exact increment_of_destroying _ _ (hcopy _)
  · rw [copyBody_snd _ _ _ _ _ hne]
    exact releaseReference_of_guard _ _ (Or.inr (Or.inl (hcopy _)))

/-- Witness for C7: the only holder of block 0 has released it; a second handle is then
assigned from it. -/
theorem copy_of_destroying_dead_witness :
    (⟨some 0, some 0, true⟩ : FRefCountedStruct).IsDestroying
      (World.run [.construct, .construct, .release 0]).heap = true ∧
    ((⟨some 1, some 1, false⟩ : FRefCountedStruct).assign
      (World.run [.construct, .construct, .release 0]).heap 1 0 ⟨some 0, some 0, true⟩).1
      = (World.run [.construct, .construct, .release 0]).heap :=
  ⟨by decide, (copy_of_destroying_dead ⟨some 1, some 1, false⟩ ⟨some 0, some 0, true⟩
    (World.run [.construct, .construct, .release 0]).heap 1 0 (by decide) (by decide)).2.2.1⟩

/-- C8: the hook is invoked once per block, at the count's transition to zero. After any
program the hook has been invoked at most once for any counter block `k`; one further
operation invokes it for `k` at most once, and it does so if and only if that operation
takes the counter of `k` from 1 to 0. -/
theorem hook_once_at_zero (ops : List Op) (op : Op) (k : Nat) :
    (World.run ops).heap.hookCount k ≤ 1 ∧
    (World.run (ops ++ [op])).heap.hookCount k ≤ 1 ∧
    ((World.run (ops ++ [op])).heap.hookCount k = (World.run ops).heap.hookCount k ∨
      (World.run (ops ++ [op])).heap.hookCount k = (World.run ops).heap.hookCount k + 1) ∧
    ((World.run (ops ++ [op])).heap.hookCount k = (World.run ops).heap.hookCount k + 1 ↔
      (World.run ops).heap.ints k = 1 ∧ (World.run (ops ++ [op])).heap.ints k = 0) := by
  have hw := World.run_wf ops
  have hw2 := World.run_wf (ops ++ [op])
  have b1 : (World.run ops).heap.hookCount k ≤ 1 := by
    rw [hw.heap.hook k]; split <;> omega
  have b2 : (World.run (ops ++ [op])).heap.hookCount k ≤ 1 := by
    rw [hw2.heap.hook k]; split <;> omega
  refine ⟨b1, b2, ?_⟩
  rw [World.run_snoc]
  obtain ⟨e, he, heq, _, _⟩ := (World.run ops).step_event hw op
  rw [heq]
  exact Heap.apply_hook _ hw.heap e he k

/-- C9, as amended: while the program has made fewer than 2^31 - 1 copy operations
(copy-constructions and copy-assignments together), the counter of every allocated block
is non-negative, and so is `GetRefCount()` on every live handle. -/
theorem count_nonneg_of_few_copies (ops : List Op) (hfew : copyOps ops < 2147483647) :
    (∀ k, k < (World.run ops).heap.nextInt → 0 ≤ (World.run ops).heap.ints k) ∧
    (∀ i h, (World.run ops).objs i = some h → 0 ≤ h.GetRefCount (World.run ops).heap) := by
  have hc : (World.run ops).heap.Counted (0 + copyOps ops) :=
    World.runFrom_counted World.init World.init_wf 0 World.init_counted ops (by omega)
  have hw := World.run_wf ops
  have key : ∀ k, k < (World.run ops).heap.nextInt → 0 ≤ (World.run ops).heap.ints k := by
    intro k hk
    obtain ⟨h1, h2⟩ := hc k hk
    cases hb : (World.run ops).heap.bools k with
    | false => have := h1 hb; omega
    | true => have := h2 hb; omega
  refine ⟨key, ?_⟩
  intro i h hi
  rcases hw.sound i h hi with ⟨k, hk, e1, _⟩ | ⟨e1, _⟩
  · simpa [FRefCountedStruct.GetRefCount, e1] using key k hk
  · simp [FRefCountedStruct.GetRefCount, e1]

/-- Witness for C9 as amended: a program with two copy operations. -/
theorem count_nonneg_of_few_copies_witness :
    copyOps [.construct, .copyConstruct 0, .construct, .copyAssign 2 0, .release 1]
      < 2147483647 ∧
    0 ≤ (World.run
      [.construct, .copyConstruct 0, .construct, .copyAssign 2 0, .release 1]).heap.ints 0 :=
  ⟨by decide, (count_nonneg_of_few_copies
    [.construct, .copyConstruct 0, .construct, .copyAssign 2 0, .release 1]
    (by decide)).1 0 (by decide)⟩

/-- Counterexample to C9 as stated: two constructed handles and 2^31 - 1 assignments
`b = a`. No handle is ever released, the counter of the block wraps around, and the
first handle reports a negative count. -/
theorem count_negative_after_overflow :
    (World.run (.construct :: .construct ::
      List.replicate 2147483647 (.copyAssign 1 0))).objs 0
        = some ⟨some 0, some 0, false⟩ ∧
    (⟨some 0, some 0, false⟩ : FRefCountedStruct).GetRefCount
      (World.run (.construct :: .construct ::
        List.replicate 2147483647 (.copyAssign 1 0))).heap = -2147483648 ∧
    ¬ (0 ≤ (World.run (.construct :: .construct ::
        List.replicate 2147483647 (.copyAssign 1 0))).heap.ints 0) := by
  have h := World.assign_loop 2147483646
  have hn : 2147483646 + 1 = 2147483647 := by norm_num
  rw [hn] at h
  obtain ⟨h0, _, hi, _, _⟩ := h
  have hv : wrapInt32 (((2147483646 : Nat) : Int) + 2) = -2147483648 := by decide
  rw [hv] at hi
  exact ⟨h0, (getRefCount_some 0 (some 0) false _).trans hi, by rw [hi]; decide⟩

/-- C10: destroying is terminal. Once the flag of a block is set in a reachable state,
any further public operations leave the flag set and the counter of the block
unchanged, and every handle sharing the block keeps reporting `IsDestroying()` and the
same count. -/
theorem destroying_terminal (ops more : List Op) (k : Nat)
    (hd : (World.run ops).heap.bools k = true) :
    ((World.run ops).runFrom more).heap.bools k = true ∧
    ((World.run ops).runFrom more).heap.ints k = (World.run ops).heap.ints k ∧
    ∀ i h, ((World.run ops).runFrom more).objs i = some h → h.RefCount = some k →
      h.IsDestroying ((World.run ops).runFrom more).heap = true ∧
      h.GetRefCount ((World.run ops).runFrom more).heap = (World.run ops).heap.ints k := by
  have hw := World.run_wf ops
  obtain ⟨h1, h2⟩ := World.runFrom_destroying _ hw k hd more
  refine ⟨h1, h2, ?_⟩
  intro i h hi hk
  obtain ⟨_, e2⟩ := ((hw.runFrom more).sound i h hi).of_refCount k hk
  simp [FRefCountedStruct.IsDestroying, FRefCountedStruct.GetRefCount, hk, e2, h1, h2]

/-- Witness for C10: a block finalized by its only holder, then copied from, released
again and disposed. -/
theorem destroying_terminal_witness :
    (World.run [.construct, .release 0]).heap.bools 0 = true ∧
    ((World.run [.construct, .release 0]).runFrom
      [.copyConstruct 0, .release 1, .copyAssign 1 0, .dispose 0 2]).heap.ints 0
      = (World.run [.construct, .release 0]).heap.ints 0 :=
  ⟨by decide, (destroying_terminal [.construct, .release 0]
    [.copyConstruct 0, .release 1, .copyAssign 1 0, .dispose 0 2] 0 (by decide)).2.1⟩

/-- C11, as amended: in every reachable state, a handle that reports `IsDestroying()`
reports `GetRefCount() == 0`; when the program has made fewer than 2^32 - 1 copy
operations, a handle that reports `GetRefCount() == 0` reports `IsDestroying()`; and
right after a `Release()` that drives the counter of a block to zero, `IsDestroying()`
is true on every handle sharing that block. -/
theorem destroying_iff_zero (ops : List Op) :
    (∀ i h, (World.run ops).objs i = some h → h.IsDestroying (World.run ops).heap = true →
      h.GetRefCount (World.run ops).heap = 0) ∧
    (copyOps ops < 4294967295 → ∀ i h, (World.run ops).objs i = some h →
      h.GetRefCount (World.run ops).heap = 0 → h.IsDestroying (World.run ops).heap = true) ∧
    (∀ i k, (World.run ops).heap.ints k ≠ 0 →
      ((World.run ops).step (.release i)).heap.ints k = 0 →
      ∀ j h, ((World.run ops).step (.release i)).objs j = some h → h.RefCount = some k →
        h.IsDestroying ((World.run ops).step (.release i)).heap = true) := by
  have hw := World.run_wf ops
  refine ⟨?_, ?_, ?_⟩
  · intro i h hi hd
    rcases hw.sound i h hi with ⟨k, _, e1, e2⟩ | ⟨e1, _⟩
    · have hb : (World.run ops).heap.bools k = true := by
        simpa [FRefCountedStruct.IsDestroying, e2] using hd
      simpa [FRefCountedStruct.GetRefCount, e1] using World.run_zeroed ops k hb
    · simp [FRefCountedStruct.GetRefCount, e1]
  · intro hfew i h hi hz
    rcases hw.sound i h hi with ⟨k, hk, e1, e2⟩ | ⟨_, e2⟩
    swap
    · simp [FRefCountedStruct.IsDestroying, e2]
    have hm : (World.run ops).heap.Modular (0 + copyOps ops) :=
      World.runFrom_modular World.init World.init_wf 0 World.init_modular ops (by omega)
    have hz2 : (World.run ops).heap.ints k = 0 := by
      simpa [FRefCountedStruct.GetRefCount, e1] using hz
    cases hb : (World.run ops).heap.bools k with
    | true => simp [FRefCountedStruct.IsDestroying, e2, hb]
    | false =>
      exfalso
      obtain ⟨t, h1, h2, h3⟩ := hm k hk hb
      rw [hz2] at h3
      have := (wrapInt32_eq_zero t).1 h3.symm
      omega
  · intro i k hnz hz j h hj hk
    have hw2 : ((World.run ops).step (.release i)).WF := by
      obtain ⟨_, _, _, hw2, _⟩ := (World.run ops).step_event hw (.release i)
      exact hw2
    obtain ⟨_, e2⟩ := (hw2.sound j h hj).of_refCount k hk
    have hflag : ((World.run ops).step (.release i)).heap.bools k = true := by
      cases hi : (World.run ops).objs i with
      | none =>
        exfalso
        have : (World.run ops).step (.release i) = World.run ops := by
          simp [World.step, hi]
        rw [this] at hz
        exact hnz hz
      | some r =>
        rw [World.step_release _ i r hi] at hz ⊢
        simp only at hz ⊢
        obtain ⟨_, _, hc⟩ := release_sound r _ (hw.sound i r hi)
        rcases hc with ⟨hc, _⟩ | ⟨a, _, _, _, ⟨hen, hc⟩ | ⟨hen, hc⟩⟩
        · exfalso
          rw [hc] at hz
          exact hnz hz
        · exfalso
          rw [hc] at hz
          simp only [Heap.apply, Heap.fetchSub] at hz
          by_cases hka : k = a
          · subst hka
            rw [Function.update_same] at hz
            exact hen.2.2 hz
          · rw [Function.update_noteq hka] at hz
            exact hnz hz
        · rw [hc] at hz ⊢
          simp only [Heap.apply, Heap.finalize, FRefCountedStruct.OnAllReferencesReleased,
            Heap.fetchSub, Heap.storeBool] at hz ⊢
          by_cases hka : k = a
          · subst hka
            rw [Function.update_same]
          · exfalso
            rw [Function.update_noteq hka] at hz
            exact hnz hz
    simp [FRefCountedStruct.IsDestroying, e2, hflag]

/-- Witness for C11 as amended: two handles on one block, the first one released. -/
theorem destroying_iff_zero_witness :
    copyOps [.construct, .copyConstruct 0, .release 0, .release 1] < 4294967295 ∧
    (⟨some 0, some 0, true⟩ : FRefCountedStruct).IsDestroying
      (World.run [.construct, .copyConstruct 0, .release 0, .release 1]).heap = true :=
  ⟨by decide, (destroying_iff_zero [.construct, .copyConstruct 0, .release 0, .release 1]).2.1
    (by decide) 0 ⟨some 0, some 0, true⟩ (by decide) (by decide)⟩

/-- Counterexample to C11 as stated: two constructed handles and 2^32 - 1 assignments
`b = a`. The counter of the block has wrapped around to 0, so the first handle reports
`GetRefCount() == 0`, while nothing was released and `IsDestroying()` is false. -/
theorem zero_count_not_destroying :
    (World.run (.construct :: .construct ::
      List.replicate 4294967295 (.copyAssign 1 0))).objs 0
        = some ⟨some 0, some 0, false⟩ ∧
    (⟨some 0, some 0, false⟩ : FRefCountedStruct).GetRefCount
      (World.run (.construct :: .construct ::
        List.replicate 4294967295 (.copyAssign 1 0))).heap = 0 ∧
    (⟨some 0, some 0, false⟩ : FRefCountedStruct).IsDestroying
      (World.run (.construct :: .construct ::
        List.replicate 4294967295 (.copyAssign 1 0))).heap = false := by
  have h := World.assign_loop 4294967294
  have hn : 4294967294 + 1 = 4294967295 := by norm_num
  rw [hn] at h
  obtain ⟨h0, _, hi, hb, _⟩ := h
  have hv : wrapInt32 (((4294967294 : Nat) : Int) + 2) = 0 := by decide
  rw [hv] at hi
  exact ⟨h0, (getRefCount_some 0 (some 0) false _).trans hi,
    (isDestroying_some 0 (some 0) false _).trans hb⟩

/-- C12: disposal of an already-released handle is a pure no-op. For every handle with
`IsReleased() == true` the destructor returns the memory (counter, destroying flag, hook
trace), the handle and the dispatch service exactly as they were: no task is submitted
and no poll is made. -/
theorem dispose_released_noop (self : FRefCountedStruct) (m : Heap) (d : Dispatch)
    (latency : Nat) (hr : self.IsReleased = true) :
    self.destructor m d latency = ((m, self), d) ∧
    (self.destructor m d latency).2.tasks = d.tasks ∧
    (self.destructor m d latency).1.2.GetRefCount (self.destructor m d latency).1.1
      = self.GetRefCount m ∧
    (self.destructor m d latency).1.2.IsDestroying (self.destructor m d latency).1.1
      = self.IsDestroying m ∧
    (self.destructor m d latency).1.1.hooks = m.hooks := by
  have hb : self.bReleased = true := hr
  have key : self.destructor m d latency = ((m, self), d) := by
    simp [FRefCountedStruct.destructor, hb]
  rw [key]
  exact ⟨rfl, rfl, rfl, rfl, rfl⟩

/-- Witness for C12: a handle released explicitly and then disposed. -/
theorem dispose_released_noop_witness :
    (⟨some 0, some 0, true⟩ : FRefCountedStruct).IsReleased = true ∧
    ((⟨some 0, some 0, true⟩ : FRefCountedStruct).destructor
      (World.run [.construct, .release 0]).heap ⟨0, 0⟩ 3).2.tasks = 0 :=
  ⟨rfl, (dispose_released_noop ⟨some 0, some 0, true⟩
    (World.run [.construct, .release 0]).heap ⟨0, 0⟩ 3 rfl).2.1⟩

/-- C13, the code at the failing input: a struct derived from `FRefCountedStruct` whose
override of `OnAllReferencesReleased()` stores true to a flag of its own (cell 1), and one
unreleased object of it that is the only holder of block 0. `Release()` on the object
brings the count to 0, sets the destroying flag and runs the override: the flag of the
struct is set and the base hook is not called. The destruction of the same object
submits one task and brings the count to 0 and sets the destroying flag as well, but the
call of line 117 reaches the base hook: the base hook is called once and the override
never runs, the flag of the struct stays false. -/
theorem destructor_skips_override :
    ((⟨⟨some 0, some 0, false⟩, fun _ m => m.storeBool 1 true⟩ : Object).Release
      ((World.run [.construct]).heap.newBool false).1).1.ints 0 = 0 ∧
    ((⟨⟨some 0, some 0, false⟩, fun _ m => m.storeBool 1 true⟩ : Object).Release
      ((World.run [.construct]).heap.newBool false).1).1.bools 0 = true ∧
    ((⟨⟨some 0, some 0, false⟩, fun _ m => m.storeBool 1 true⟩ : Object).Release
      ((World.run [.construct]).heap.newBool false).1).1.bools 1 = true ∧
    ((⟨⟨some 0, some 0, false⟩, fun _ m => m.storeBool 1 true⟩ : Object).Release
      ((World.run [.construct]).heap.newBool false).1).1.hooks.length = 0 ∧
    ((⟨⟨some 0, some 0, false⟩, fun _ m => m.storeBool 1 true⟩ : Object).destructor
      ((World.run [.construct]).heap.newBool false).1 ⟨0, 0⟩ 2).2.tasks = 1 ∧
    ((⟨⟨some 0, some 0, false⟩, fun _ m => m.storeBool 1 true⟩ : Object).destructor
      ((World.run [.construct]).heap.newBool false).1 ⟨0, 0⟩ 2).1.1.ints 0 = 0 ∧
    ((⟨⟨some 0, some 0, false⟩, fun _ m => m.storeBool 1 true⟩ : Object).destructor
      ((World.run [.construct]).heap.newBool false).1 ⟨0, 0⟩ 2).1.1.bools 0 = true ∧
    ((⟨⟨some 0, some 0, false⟩, fun _ m => m.storeBool 1 true⟩ : Object).destructor
      ((World.run [.construct]).heap.newBool false).1 ⟨0, 0⟩ 2).1.1.bools 1 = false ∧
    ((⟨⟨some 0, some 0, false⟩, fun _ m => m.storeBool 1 true⟩ : Object).destructor
      ((World.run [.construct]).heap.newBool false).1 ⟨0, 0⟩ 2).1.1.hooks.length = 1 := by
  decide

/-- C14: the released flag of a copy is monotone. If a live handle reports
`IsReleased()` in a reachable state, then after any further public operations, on it or
on any other handle (releases, copy-constructions from it, copy-assignments with it as
source or as destination), it still reports `IsReleased()` for as long as it is alive;
so the flag goes from false to true at most once. -/
theorem released_monotone (ops more : List Op) (i : Nat) (h1 h2 : FRefCountedStruct)
    (hi : (World.run ops).objs i = some h1) (hr : h1.IsReleased = true)
    (hi2 : ((World.run ops).runFrom more).objs i = some h2) :
    h2.IsReleased = true := by
  have hw := World.run_wf ops
  have hlt : i < (World.run ops).nextObj := by
    by_contra hx
    have := hw.fresh i (by omega)
    rw [hi] at this
    cases this
  obtain ⟨h0, e1, e2⟩ := World.runFrom_released _ more i hlt h2 hi2
  rw [hi] at e1
  cases e1
  exact e2 hr

/-- Witness for C14: a released handle is copied from, assigned to, assigned from and
released again. -/
theorem released_monotone_witness :
    (World.run [.construct, .construct, .release 0]).objs 0 = some ⟨some 0, some 0, true⟩ ∧
    (⟨some 1, some 1, true⟩ : FRefCountedStruct).IsReleased = true :=
  ⟨by decide, released_monotone [.construct, .construct, .release 0]
    [.copyConstruct 0, .copyAssign 0 1, .copyAssign 1 0, .release 0] 0
    ⟨some 0, some 0, true⟩ ⟨some 1, some 1, true⟩ (by decide) rfl (by decide)⟩

/-- C15: self-assignment is a no-op. For every handle in every state `h = h` returns the
memory and the handle unchanged, so the counter, the destroying flag, the block
reference and the released flag of `h` are as before; as a program step it leaves the
whole state unchanged. -/
theorem self_assign_noop (self : FRefCountedStruct) (m : Heap) (addr : Nat) (w : World)
    (i : Nat) :
    self.assign m addr addr self = (m, self) ∧
    (self.assign m addr addr self).2.GetRefCount (self.assign m addr addr self).1
      = self.GetRefCount m ∧
    (self.assign m addr addr self).2.IsDestroying (self.assign m addr addr self).1
      = self.IsDestroying m ∧
    (self.assign m addr addr self).2.RefCount = self.RefCount ∧
    (self.assign m addr addr self).2.IsReleased = self.IsReleased ∧
    w.step (.copyAssign i i) = w := by
  have key : self.assign m addr addr self = (m, self) := by
    simp [FRefCountedStruct.assign, FRefCountedStruct.copyBody]
  rw [key]
  refine ⟨rfl, rfl, rfl, rfl, rfl, ?_⟩
  cases hi : w.objs i with
  | none => simp [World.step, hi]
  | some d =>
    have hu : Function.update w.objs i (some d) = w.objs := by
      rw [← hi]
      exact Function.update_eq_self i w.objs
    simp [World.step, hi, FRefCountedStruct.assign, FRefCountedStruct.copyBody, hu]

/-- C16, the code at the failing input: two threads release the two copies of a block
whose count is 2. In the interleaving where both threads execute their `fetch_sub`
before either executes the `load` of line 114, both loads read 0 and both threads call
the hook: it is invoked twice, also by the thread whose decrement produced 1. The final
count is 0 and both threads have finished. Run one after the other, the same two
releases invoke the hook once. -/
theorem concurrent_release_double_hook :
    (World.run [.construct, .copyConstruct 0]).heap.ints 0 = 2 ∧
    ((Conc.mk (World.run [.construct, .copyConstruct 0]).heap
      [Thread.start ⟨some 0, some 0, false⟩, Thread.start ⟨some 0, some 0, false⟩]).run
      [0, 1, 0, 1, 0, 0, 0, 0, 1, 1, 1, 1]).heap.hooks.length = 2 ∧
    ((Conc.mk (World.run [.construct, .copyConstruct 0]).heap
      [Thread.start ⟨some 0, some 0, false⟩, Thread.start ⟨some 0, some 0, false⟩]).run
      [0, 1, 0, 1, 0, 0, 0, 0, 1, 1, 1, 1]).heap.ints 0 = 0 ∧
    ((Conc.mk (World.run [.construct, .copyConstruct 0]).heap
      [Thread.start ⟨some 0, some 0, false⟩, Thread.start ⟨some 0, some 0, false⟩]).run
      [0, 1, 0, 1, 0, 0, 0, 0, 1, 1, 1, 1]).threads
        = [⟨⟨some 0, some 0, true⟩, .done⟩, ⟨⟨some 0, some 0, true⟩, .done⟩] ∧
    ((Conc.mk (World.run [.construct, .copyConstruct 0]).heap
      [Thread.start ⟨some 0, some 0, false⟩, Thread.start ⟨some 0, some 0, false⟩]).run
      [0, 0, 0, 0, 0, 0, 1, 1, 1, 1, 1, 1]).heap.hooks.length = 1 := by
  decide

/-- C17, as amended: the absent-block state is not reachable through default
construction, copy-construction from another object and copy-assignment. Every handle
alive after any program of constructions, copies, releases and disposals that never
copy-constructs an object from itself has a counter and a flag, both of one allocated
block: `IsValid()` is true, `GetRefCount()` reads the counter cell, `IsDestroying()`
reads the flag cell, `IncrementRefCounter()` depends on the flag alone and the guards of
`Release()` reduce to the destroying and released checks, so none of the absent-block
branches is taken. -/
theorem block_present_without_self_copy (ops : List Op)
    (hfree : World.init.selfCopyFree ops = true) (i : Nat) (h : FRefCountedStruct)
    (hi : (World.run ops).objs i = some h) :
    h.IsValid = true ∧
    ∃ k, k < (World.run ops).heap.nextInt ∧ h.RefCount = some k ∧ h.bIsDestroying = some k ∧
      h.GetRefCount (World.run ops).heap = (World.run ops).heap.ints k ∧
      h.IsDestroying (World.run ops).heap = (World.run ops).heap.bools k ∧
      h.IncrementRefCounter (World.run ops).heap
        = (if (World.run ops).heap.bools k = true then (World.run ops).heap
            else (World.run ops).heap.fetchAdd k 1) ∧
      (!h.IsValid || h.IsDestroying (World.run ops).heap || h.IsReleased)
        = ((World.run ops).heap.bools k || h.bReleased) := by
  have hval : h.IsValid = true :=
    World.runFrom_valid World.init ops hfree (fun j x hj => by simp [World.init] at hj) i h hi
  have hl : h.Linked (World.run ops).heap := by
    rcases (World.run_wf ops).sound i h hi with hl | ⟨hn, _⟩
    · exact hl
    · simp [FRefCountedStruct.IsValid, hn] at hval
  obtain ⟨k, hk, e1, e2⟩ := hl
  refine ⟨hval, k, hk, e1, e2, ?_, ?_, ?_, ?_⟩
  · simp [FRefCountedStruct.GetRefCount, e1]
  · simp [FRefCountedStruct.IsDestroying, e2]
  · simp [FRefCountedStruct.IncrementRefCounter, FRefCountedStruct.IsDestroying, e1, e2]
  · simp [FRefCountedStruct.IsValid, FRefCountedStruct.IsDestroying,
      FRefCountedStruct.IsReleased, e1, e2]

/-- Witness for C17 as amended: the destination of a copy-assignment. -/
theorem block_present_without_self_copy_witness :
    World.init.selfCopyFree [.construct, .construct, .copyAssign 1 0] = true ∧
    (World.run [.construct, .construct, .copyAssign 1 0]).objs 1
      = some ⟨some 0, some 0, false⟩ ∧
    (⟨some 0, some 0, false⟩ : FRefCountedStruct).IsValid = true :=
  ⟨by decide, by decide,
    (block_present_without_self_copy [.construct, .construct, .copyAssign 1 0] (by decide) 1
      ⟨some 0, some 0, false⟩ (by decide)).1⟩

/-- Counterexample to C17 as stated: `FRefCountedStruct x(x);`. The guard
`this != &Other` of the copy constructor skips `CopyFrom` and `IncrementRefCounter`, so
the new handle keeps its two null pointers: `IsValid()` is false, `GetRefCount()` takes
its absent-block branch and returns 0, `IsDestroying()` takes its absent-block branch
and returns true, the `!IsValid()` guard of `Release()` fires, and no block is
allocated. A handle assigned from it afterwards (`FRefCountedStruct a; ... a = x;`)
loses its block as well, and a copy constructed from it has none. -/
theorem self_copy_has_no_block :
    World.init.selfCopyFree [.copyConstruct 0] = false ∧
    (World.run [.copyConstruct 0]).objs 0 = some ⟨none, none, false⟩ ∧
    (World.run [.copyConstruct 0]).heap.nextInt = 0 ∧
    (⟨none, none, false⟩ : FRefCountedStruct).IsValid = false ∧
    (⟨none, none, false⟩ : FRefCountedStruct).GetRefCount (World.run [.copyConstruct 0]).heap
      = 0 ∧
    (⟨none, none, false⟩ : FRefCountedStruct).IsDestroying (World.run [.copyConstruct 0]).heap
      = true ∧
    ((⟨none, none, false⟩ : FRefCountedStruct).Release (World.run [.copyConstruct 0]).heap).2
      = ⟨none, none, false⟩ ∧
    (World.run [.construct, .copyConstruct 1, .copyAssign 0 1]).objs 0
      = some ⟨none, none, false⟩ ∧
    (World.run [.construct, .copyConstruct 1, .copyConstruct 1]).objs 2
      = some ⟨none, none, false⟩ := by
  decide

/-- C18: the hook observes a fully torn-down state. `Release()` either leaves the hook
trace as it is or appends one call, and that call records `GetRefCount() == 0`,
`IsDestroying()` true and `IsReleased()` true on the releasing handle at the moment of
the call; every hook call made by any program records the same. -/
theorem hook_sees_torn_down (self : FRefCountedStruct) (m : Heap) (ops : List Op) :
    ((self.Release m).1.hooks = m.hooks ∨
      (self.Release m).1.hooks = m.hooks ++ [⟨self.RefCount, 0, true, true⟩]) ∧
    ∀ c ∈ (World.run ops).heap.hooks,
      c.refCount = 0 ∧ c.destroying = true ∧ c.released = true := by
  refine ⟨?_, World.run_hooks ops⟩
  unfold FRefCountedStruct.Release
  by_cases hg : self.IsValid = false ∨ self.IsDestroying m = true ∨ self.IsReleased = true
  · left
    rw [releaseReference_of_guard self m hg]
  · have hv : self.IsValid = true := by
      cases h : self.IsValid <;> simp_all
    have hd : self.IsDestroying m = false := by
      cases h : self.IsDestroying m <;> simp_all
    have hr : self.bReleased = false := by
      cases h : self.bReleased <;> simp_all [FRefCountedStruct.IsReleased]
    obtain ⟨rc, fl, hrc, hfl, hb⟩ := live_cases self m hv hd
    rw [releaseReference_of_live self m rc fl hrc hfl hb hr]
    by_cases hz : wrapInt32 (m.ints rc - 1) = 0
    · right
      rw [if_pos hz]
      simp [FRefCountedStruct.OnAllReferencesReleased, FRefCountedStruct.GetRefCount,
        FRefCountedStruct.IsDestroying, FRefCountedStruct.IsReleased, Heap.fetchSub,
        Heap.storeBool, hrc, hfl, hz]
    · left
      rw [if_neg hz]
      rfl

/-- Witness for C18: the only holder of a fresh block releases it. -/
theorem hook_sees_torn_down_witness :
    (⟨some 0, 0, true, true⟩ : HookCall) ∈ (World.run [.construct, .release 0]).heap.hooks ∧
    (⟨some 0, 0, true, true⟩ : HookCall).refCount = 0 :=
  ⟨by decide, ((hook_sees_torn_down ⟨some 0, some 0, false⟩ Heap.empty
    [.construct, .release 0]).2 ⟨some 0, 0, true, true⟩ (by decide)).1⟩

/-- C19, as amended: no premature finalization while no counter has wrapped around.
After a program with fewer than 2^31 - 1 copy operations, the counter of every block
that is not destroying is at least the number of existing handles that share the block
and have released = false. After a program with fewer than 2^32 copy operations, an
operation that invokes the hook for a block leaves no live handle sharing that block
with released = false. -/
theorem no_premature_finalization (ops : List Op) :
    (copyOps ops < 2147483647 → ∀ k, k < (World.run ops).heap.nextInt →
      (World.run ops).heap.bools k = false →
      ((World.run ops).holders k : Int) ≤ (World.run ops).heap.ints k) ∧
    (copyOps ops < 4294967296 → ∀ op k,
      ((World.run ops).step op).heap.hookCount k = (World.run ops).heap.hookCount k + 1 →
      ∀ j h, ((World.run ops).step op).objs j = some h → h.RefCount = some k →
        h.IsReleased = true) := by
  have hw := World.run_wf ops
  have ht := World.run_tracked ops
  constructor
  · intro hfew k hk hb
    obtain ⟨t, h1, h2, h3, h4⟩ := ht k hk hb
    rw [h4]
    unfold wrapInt32
    omega
  · intro hfew op k hhook j h hj hk
    obtain ⟨e, he, heq, hdelta, _⟩ := (World.run ops).step_holders hw op
    rw [heq] at hhook
    have hfin : e = .fin k := by
      cases e with
      | idle => exfalso; simp only [Heap.apply] at hhook; omega
      | alloc =>
        exfalso
        have : ((World.run ops).heap.apply .alloc).hookCount k
            = (World.run ops).heap.hookCount k := rfl
        omega
      | inc a =>
        exfalso
        have : ((World.run ops).heap.apply (.inc a)).hookCount k
            = (World.run ops).heap.hookCount k := rfl
        omega
      | dec a =>
        exfalso
        have : ((World.run ops).heap.apply (.dec a)).hookCount k
            = (World.run ops).heap.hookCount k := rfl
        omega
      | fin a =>
        have := hookCount_finalize (World.run ops).heap a k
        simp only [Heap.apply] at hhook
        by_cases hka : k = a
        · rw [hka]
        · exfalso
          rw [if_neg hka] at this
          omega
    subst hfin
    obtain ⟨hk1, hb, hz⟩ := he
    obtain ⟨t, h1, h2, h3, h4⟩ := ht k hk1 hb
    rw [h4, wrapInt32_sub, wrapInt32_eq_zero] at hz
    have ht1 : t = 1 := by omega
    have hd := hdelta k hb
    simp only [Heap.delta, if_true] at hd
    have hzero : ((World.run ops).step op).holders k = 0 := by omega
    have hw2 : ((World.run ops).step op).WF := by
      obtain ⟨_, _, _, hw2, _⟩ := (World.run ops).step_event hw op
      exact hw2
    have hlt := ((World.run ops).step op).lt_nextObj hw2 j h hj
    have hno := countHolders_zero_elim _ k _ hzero j hlt
    rw [hj] at hno
    simp only [holds, hk, decide_True, Bool.true_and, Bool.not_eq_false'] at hno
    exact hno

/-- Witness for C19 as amended: three handles on one block, two already released, and
the release of the last one. -/
theorem no_premature_finalization_witness :
    copyOps [.construct, .copyConstruct 0, .copyConstruct 1, .release 0, .release 2]
      < 2147483647 ∧
    ((World.run [.construct, .copyConstruct 0, .copyConstruct 1, .release 0,
      .release 2]).holders 0 : Int)
      ≤ (World.run [.construct, .copyConstruct 0, .copyConstruct 1, .release 0,
          .release 2]).heap.ints 0 ∧
    (⟨some 0, some 0, true⟩ : FRefCountedStruct).IsReleased = true :=
  ⟨by decide,
    (no_premature_finalization [.construct, .copyConstruct 0, .copyConstruct 1, .release 0,
      .release 2]).1 (by decide) 0 (by decide) (by decide),
    (no_premature_finalization [.construct, .copyConstruct 0, .copyConstruct 1, .release 0,
      .release 2]).2 (by decide) (.release 1) 0 (by decide) 2 ⟨some 0, some 0, true⟩
      (by decide) rfl⟩

/-- Counterexample to C19 as stated, with two handles that are never released before the
point shown. After 2^31 - 1 assignments `b = a` the block is not destroying, both
handles are unreleased holders of it, and its counter is -2^31, below 2. After 2^32
assignments the counter reads 1 again, so `a.Release()` invokes the hook although `b`
still shares the block with released = false. -/
theorem holders_exceed_wrapped_count :
    (World.run (.construct :: .construct ::
      List.replicate 2147483647 (.copyAssign 1 0))).heap.bools 0 = false ∧
    (World.run (.construct :: .construct ::
      List.replicate 2147483647 (.copyAssign 1 0))).holders 0 = 2 ∧
    (World.run (.construct :: .construct ::
      List.replicate 2147483647 (.copyAssign 1 0))).heap.ints 0 = -2147483648 ∧
    ((World.run (.construct :: .construct ::
      List.replicate 4294967296 (.copyAssign 1 0))).step (.release 0)).heap.hookCount 0
        = (World.run (.construct :: .construct ::
            List.replicate 4294967296 (.copyAssign 1 0))).heap.hookCount 0 + 1 ∧
    ((World.run (.construct :: .construct ::
      List.replicate 4294967296 (.copyAssign 1 0))).step (.release 0)).objs 1
        = some ⟨some 0, some 0, false⟩ := by
  have h := World.assign_loop 2147483646
  have hh := World.assign_loop_holders 2147483646
  have hn : 2147483646 + 1 = 2147483647 := by norm_num
  rw [hn] at h hh
  obtain ⟨_, _, hi, hb, _⟩ := h
  have hv : wrapInt32 (((2147483646 : Nat) : Int) + 2) = -2147483648 := by decide
  rw [hv] at hi
  have hr := World.assign_loop_release 4294967295 (by decide)
  have hn2 : 4294967295 + 1 = 4294967296 := by norm_num
  rw [hn2] at hr
  exact ⟨hb, hh, hi, hr.1, hr.2⟩

/-- C20: copy-assignment does not release the previous block of the destination. For a
destination whose counter is the cell `B` and a source on another block, `dest = src`
leaves the counter of `B`, every destroying flag and the hook trace as they were, and
the destination no longer refers to `B`; this holds whether or not the destination was
released. -/
theorem assign_keeps_previous_block (dest src : FRefCountedStruct) (m : Heap)
    (thisAddr otherAddr B : Nat) (hB : dest.RefCount = some B)
    (hsrc : src.RefCount ≠ some B) :
    (dest.assign m thisAddr otherAddr src).1.ints B = m.ints B ∧
    (dest.assign m thisAddr otherAddr src).1.bools = m.bools ∧
    (dest.assign m thisAddr otherAddr src).1.hooks = m.hooks ∧
    dest.GetRefCount (dest.assign m thisAddr otherAddr src).1 = dest.GetRefCount m ∧
    dest.IsDestroying (dest.assign m thisAddr otherAddr src).1 = dest.IsDestroying m ∧
    (thisAddr ≠ otherAddr →
      (dest.assign m thisAddr otherAddr src).2.RefCount = src.RefCount ∧
      (dest.assign m thisAddr otherAddr src).2.RefCount ≠ some B) := by
  have hheap : (dest.assign m thisAddr otherAddr src).1.ints B = m.ints B ∧
      (dest.assign m thisAddr otherAddr src).1.bools = m.bools ∧
      (dest.assign m thisAddr otherAddr src).1.hooks = m.hooks := by
    unfold FRefCountedStruct.assign FRefCountedStruct.copyBody
    by_cases hne : thisAddr ≠ otherAddr
    · rw [if_pos hne]
      simp only [FRefCountedStruct.IncrementRefCounter, FRefCountedStruct.CopyFrom]
      cases hs : src.RefCount with
      | none => exact ⟨rfl, rfl, rfl⟩
      | some a =>
        have hab : B ≠ a := by
          intro hx
          apply hsrc
          rw [hs, hx]
        simp only
        split
        · exact ⟨rfl, rfl, rfl⟩
        · exact ⟨by simp [Heap.fetchAdd, Function.update_noteq hab], rfl, rfl⟩
    · rw [if_neg hne]
      exact ⟨rfl, rfl, rfl⟩
  obtain ⟨h1, h2, h3⟩ := hheap
  refine ⟨h1, h2, h3, ?_, ?_, ?_⟩
  · simp [FRefCountedStruct.GetRefCount, hB, h1]
  · simp [FRefCountedStruct.IsDestroying, h2]
  · intro hne
    have : (dest.assign m thisAddr otherAddr src).2 = dest.CopyFrom src :=
      copyBody_snd dest src m thisAddr otherAddr hne
    rw [this]
    exact ⟨rfl, hsrc⟩

/-- Witness for C20: an unreleased handle of block 1 is assigned from a handle of
block 0. -/
theorem assign_keeps_previous_block_witness :
    (⟨some 1, some 1, false⟩ : FRefCountedStruct).RefCount = some 1 ∧
    ((⟨some 1, some 1, false⟩ : FRefCountedStruct).assign
      (World.run [.construct, .construct]).heap 1 0 ⟨some 0, some 0, false⟩).1.ints 1
      = (World.run [.construct, .construct]).heap.ints 1 :=
  ⟨rfl, (assign_keeps_previous_block ⟨some 1, some 1, false⟩ ⟨some 0, some 0, false⟩
    (World.run [.construct, .construct]).heap 1 0 1 rfl (by decide)).1⟩

end RefCounter
